import Mathlib

set_option maxRecDepth 100000

/-!
Verification development for the `internal/source` package of the pkgsite
repository (file `src/internal/source/source.go`).

The package resolves a module path and version to a repository URL, a module
directory, a commit reference and a set of URL templates, and builds browsable
URLs from them.  The Go code relies on the `regexp`, `strings`, `strconv` and
`path` standard-library packages; the semantics of the standard-library
routines used (leftmost-first regular-expression matching, `strings.Replacer`,
`strings.TrimPrefix`, `strings.TrimSuffix`, `strings.Count`,
`strings.LastIndex`, `strconv.Itoa`, `path.Join`, `path.Clean`) are embedded
below.  Strings are modelled as Lean strings (lists of characters); the inputs
the package handles are ASCII, where Go byte indexing and character indexing
agree.
-/

/-- Characters used for brace tokens (codepoints 123 and 125). -/
def lbrace : Char := Char.ofNat 123

/-- Closing brace character. -/
def rbrace : Char := Char.ofNat 125

def newlineChar : Char := Char.ofNat 10

def emptyStr : String := ""

def slashStr : String := "/"

/-! ## A backtracking regular-expression engine

Go `regexp` (RE2) returns, for a pattern, the match that begins earliest in
the input and, among matches beginning there, the one a Perl-style
backtracking search would find first.  The engine below makes that search
order explicit: `runs re s caps` returns the list of all matches of `re`
against a prefix of `s`, as pairs (number of characters consumed, capture
list), in backtracking priority order; the head of the list is the match Go
reports.  A starred sub-expression is repeated only while it consumes input
(an iteration consuming nothing would not be repeated by a backtracking
engine either); every starred sub-expression appearing in the patterns of
this package consumes at least one character, so no behaviour is lost. -/

inductive Re : Type where
  | eps : Re
  | cls : (Char → Bool) → Re
  | anyc : Re
  | str : List Char → Re
  | seq : Re → Re → Re
  | alt : Re → Re → Re
  | star : Bool → Re → Re
  | group : Nat → String → Re → Re
  | eos : Re

/-- Capture list: pairs of a group index and the text that group matched. -/
abbrev Caps : Type := List (Nat × List Char)

/-- Iteration of a starred sub-expression.  `body` is the matcher of the
starred expression; an iteration is taken only when it consumes input, so
the remaining input shrinks strictly and a fuel of the input length plus one
is always enough — the fuel value is proved irrelevant above that bound
below, and the zero-fuel branch is never reached from `runs`. -/
def starVisit (g : Bool) (body : List Char → Caps → List (Nat × Caps)) :
    Nat → List Char → Caps → List (Nat × Caps)
  | 0, _, caps => [(0, caps)]
  | fuel + 1, s, caps =>
    let deeper := (body s caps).flatMap (fun pr =>
      if 0 < pr.1 ∧ pr.1 ≤ s.length then
        (starVisit g body fuel (s.drop pr.1) pr.2).map (fun qr => (pr.1 + qr.1, qr.2))
      else [])
    if g then deeper ++ [(0, caps)] else (0, caps) :: deeper

def runs : Re → List Char → Caps → List (Nat × Caps)
  | .eps, _, caps => [(0, caps)]
  | .cls p, s, caps =>
    match s with
    | c :: _ => if p c then [(1, caps)] else []
    | [] => []
  | .anyc, s, caps =>
    match s with
    | c :: _ => if c == newlineChar then [] else [(1, caps)]
    | [] => []
  | .str l, s, caps => if l.isPrefixOf s then [(l.length, caps)] else []
  | .seq a b, s, caps =>
    (runs a s caps).flatMap (fun pr =>
      (runs b (s.drop pr.1) pr.2).map (fun qr => (pr.1 + qr.1, qr.2)))
  | .alt a b, s, caps => runs a s caps ++ runs b s caps
  | .star g r, s, caps => starVisit g (runs r) (s.length + 1) s caps
  | .group idx _ r, s, caps =>
    (runs r s caps).map (fun pr => (pr.1, (idx, s.take pr.1) :: pr.2))
  | .eos, s, caps => match s with | [] => [(0, caps)] | _ => []

/-- One-character literal. -/
def chrR (c : Char) : Re := .str [c]

/-- Greedy or lazy plus: at least one repetition. -/
def plusR (g : Bool) (r : Re) : Re := .seq r (.star g r)

/-- Greedy or lazy option. -/
def optR (g : Bool) (r : Re) : Re := if g then .alt r .eps else .alt .eps r

/-- Exact repetition, as in a counted quantifier. -/
def reptR : Nat → Re → Re
  | 0, _ => .eps
  | n + 1, r => .seq r (reptR n r)

/-- Names of all capture groups of a pattern in syntactic order, preceded by
the empty name of the whole-match pseudo-group, as Go `Regexp.SubexpNames`
reports them. -/
def collectGroupNames : Re → List String
  | .seq a b => collectGroupNames a ++ collectGroupNames b
  | .alt a b => collectGroupNames a ++ collectGroupNames b
  | .star _ r => collectGroupNames r
  | .group _ nm r => nm :: collectGroupNames r
  | _ => []

def emptyName : String := ""

def subexpNamesR (re : Re) : List String := emptyName :: collectGroupNames re

/-- Text captured by group `i`, or the empty string when the group did not
participate in the match, as Go reports `matches[i]`. -/
def capStr (caps : Caps) (i : Nat) : String :=
  match caps.find? (fun pr => pr.1 == i) with
  | some pr => String.mk pr.2
  | none => ""

/-- Scan for the leftmost match, as `Regexp.FindStringSubmatch` does for a
pattern without a leading anchor: positions are tried left to right and the
first position admitting a match wins.  Returns (start position, length of
the whole match, captures). -/
def findFrom (re : Re) : List Char → Nat → Option (Nat × Nat × Caps)
  | s, pos =>
    match (runs re s []).head? with
    | some pr => some (pos, pr.1, pr.2)
    | none =>
      match s with
      | [] => none
      | _ :: rest => findFrom re rest (pos + 1)

/-- The three URL templates of a hosting convention (structure `urlTemplates`
of the Go source). -/
structure UrlTemplates where
  directory : String
  file : String
  line : String
deriving DecidableEq, Repr

/-- A table entry: whether the regular expression is anchored with a leading
caret, its body, and the URL templates paired with it. -/
structure Pat where
  anchored : Bool
  re : Re
  templates : UrlTemplates

/-- Leftmost match of a table pattern, taking the anchor into account: an
anchored pattern is tried at the start only. -/
def findSubmatch (p : Pat) (s : List Char) : Option (Nat × Nat × Caps) :=
  if p.anchored then (runs p.re s []).head?.map (fun pr => (0, pr.1, pr.2))
  else findFrom p.re s 0

/-! ## The pattern table

The four table entries of `var patterns` in the source, transcribed
construct by construct.  The first three regular expressions carry a leading
caret; the last one does not.  Character classes become predicates; the
unescaped dot in `googlesource.com` is the any-character metacharacter, as
in the source text. -/

/-- Character class of a path segment: lower case, digits, upper case,
underscore, dot, hyphen. -/
def clsSeg (c : Char) : Bool :=
  c.isLower || c.isDigit || c.isUpper || c == '_' || c == '.' || c == '-'

/-- Character class of a host-like atom: lower case, digits, dot, hyphen. -/
def clsHost (c : Char) : Bool := c.isLower || c.isDigit || c == '.' || c == '-'

/-- Negated class: any character other than a dot. -/
def clsNotDot (c : Char) : Bool := c != '.'

/-- Negated class: any character other than a plus sign. -/
def clsNotPlus (c : Char) : Bool := c != '+'

/-- Class of decimal digits. -/
def clsDigit (c : Char) : Bool := c.isDigit

/-- Class of ASCII letters and digits. -/
def clsAlnum (c : Char) : Bool := c.isUpper || c.isLower || c.isDigit

def keyRepo : String := "repo"

def litGithub : List Char := "github.com/".data

def litBitbucket : List Char := "bitbucket.org/".data

def litDotGoogle : List Char := ".googlesource".data

def litComSlash : List Char := "com/".data

def litDotGit : List Char := ".git".data

def litBzr : List Char := "bzr".data

def litFossil : List Char := "fossil".data

def litGit : List Char := "git".data

def litHg : List Char := "hg".data

def litSvn : List Char := "svn".data

/-- Body of the first table pattern (github two-segment convention). -/
def githubRe : Re :=
  .group 1 keyRepo (.seq (.str litGithub)
    (.seq (plusR true (.cls clsSeg)) (.seq (chrR '/') (plusR true (.cls clsSeg)))))

/-- Body of the second table pattern (bitbucket two-segment convention). -/
def bitbucketRe : Re :=
  .group 1 keyRepo (.seq (.str litBitbucket)
    (.seq (plusR true (.cls clsSeg)) (.seq (chrR '/') (plusR true (.cls clsSeg)))))

/-- Body of the third table pattern (googlesource hosts). -/
def googRe : Re :=
  .seq
    (.group 1 keyRepo (.seq (plusR true (.cls clsNotDot))
      (.seq (.str litDotGoogle) (.seq .anyc
        (.seq (.str litComSlash) (plusR true (.cls clsNotDot)))))))
    (.group 2 emptyName (.alt (.str litDotGit) .eos))

/-- Body of the fourth, generic table pattern: dotted host, optional port,
one or more path segments (lazy), then a version-control suffix. -/
def genRe : Re :=
  .seq
    (.group 1 keyRepo (.seq
      (plusR true (.group 2 emptyName (.seq (plusR true (.cls clsHost)) (chrR '.'))))
      (.seq (plusR true (.cls clsHost))
        (.seq (optR true (.group 3 emptyName (.seq (chrR ':') (plusR true (.cls clsDigit)))))
          (plusR false (.group 4 emptyName
            (.seq (chrR '/') (.seq (optR true (chrR '~')) (plusR true (.cls clsSeg))))))))))
    (.seq (chrR '.')
      (.group 5 emptyName (.alt (.str litBzr) (.alt (.str litFossil)
        (.alt (.str litGit) (.alt (.str litHg) (.str litSvn)))))))

/-- URL templates of the github convention (`var githubURLTemplates`). -/
def githubURLTemplates : UrlTemplates where
  directory := "{repo}/tree/{commit}/{dir}"
  file := "{repo}/blob/{commit}/{file}"
  line := "{repo}/blob/{commit}/{file}#L{line}"

/-- URL templates of the bitbucket convention. -/
def bitbucketURLTemplates : UrlTemplates where
  directory := "{repo}/src/{commit}/{dir}"
  file := "{repo}/src/{commit}/{file}"
  line := "{repo}/src/{commit}/{file}#lines-{line}"

/-- URL templates of the googlesource convention. -/
def googURLTemplates : UrlTemplates where
  directory := "{repo}/+/{commit}/{dir}"
  file := "{repo}/+/{commit}/{file}"
  line := "{repo}/+/{commit}/{file}#{line}"

/-- The zero value of `urlTemplates`. -/
def emptyTemplates : UrlTemplates where
  directory := ""
  file := ""
  line := ""

/-- The ordered pattern table (`var patterns` in the source). -/
def patterns : List Pat :=
  [ { anchored := true, re := githubRe, templates := githubURLTemplates },
    { anchored := true, re := bitbucketRe, templates := bitbucketURLTemplates },
    { anchored := true, re := googRe, templates := googURLTemplates },
    { anchored := false, re := genRe, templates := emptyTemplates } ]

/-! ## String helpers from the Go standard library -/

/-- Model of `strings.TrimSuffix`: drop one occurrence of `suffix` from the
end of `s` when present. -/
def trimSuffix (s suffix : String) : String :=
  if suffix.data.isSuffixOf s.data then
    String.mk (s.data.take (s.data.length - suffix.data.length))
  else s

/-- Model of `strings.TrimPrefix`: drop one occurrence of `pre` from the
start of `s` when present. -/
def trimPre (s pre : String) : String :=
  if pre.data.isPrefixOf s.data then String.mk (s.data.drop pre.data.length) else s

/-- Model of `strings.LastIndex` for a one-character needle: index of the
last occurrence, or minus one when absent. -/
def lastIndexC : List Char → Char → Int
  | [], _ => -1
  | a :: rest, c =>
    let r := lastIndexC rest c
    if 0 ≤ r then r + 1 else if a == c then 0 else -1

/-- Decimal digit character for a value below ten. -/
def digitChar (d : Nat) : Char := Char.ofNat (48 + d)

/-- Digit loop with fuel; a fuel above the value is always enough, since
dividing by ten decreases a value of ten or more. -/
def natDecF : Nat → Nat → List Char
  | 0, _ => []
  | fuel + 1, n =>
    if n < 10 then [digitChar n]
    else natDecF fuel (n / 10) ++ [digitChar (n % 10)]

/-- Decimal digit characters of a natural number, most significant first,
as the digit loop of `strconv.FormatInt` emits them. -/
def natDec (n : Nat) : List Char := natDecF (n + 1) n

/-- Model of `strconv.Itoa`: signed base-ten decimal rendering.  Go operates
on a bounded machine integer; line numbers are far from its bounds, so the
unbounded integer is the faithful model here. -/
def itoa (i : Int) : String :=
  if i < 0 then String.mk ('-' :: natDec i.natAbs) else String.mk (natDec i.toNat)

/-- Model of `strings.Count` for a one-character needle. -/
def hyphenCount (v : String) : Nat := v.data.count '-'

/-! ## Pseudo-version detection and commit derivation -/

def litZZDash : List Char := "0.0-".data

def litZeroDot : List Char := "0.".data

def incompatibleSuffix : String := "+incompatible"

def litPlusIncompat : List Char := "+incompatible".data

/-- The pseudo-version regular expression of the source
(`var pseudoVersionRE`), transcribed construct by construct; it is anchored
at both ends. -/
def pseudoVersionRE : Re :=
  .seq (chrR 'v') (.seq (plusR true (.cls clsDigit)) (.seq (chrR '.')
    (.seq (.group 1 emptyName (.alt (.str litZZDash)
        (.seq (plusR true (.cls clsDigit)) (.seq (chrR '.')
          (.seq (plusR true (.cls clsDigit)) (.seq (chrR '-')
            (.seq (optR true (.group 2 emptyName
                (.seq (.star true (.cls clsNotPlus)) (chrR '.'))))
              (.str litZeroDot))))))))
      (.seq (reptR 14 (.cls clsDigit)) (.seq (chrR '-')
        (.seq (plusR true (.cls clsAlnum))
          (.seq (optR true (.group 3 emptyName (.str litPlusIncompat))) .eos)))))))

/-- Model of `isPseudoVersion`: at least two hyphens and a match of
`pseudoVersionRE` (which, being anchored, can only match at the start). -/
def isPseudoVersion (v : String) : Bool :=
  decide (2 ≤ hyphenCount v) && !(runs pseudoVersionRE v.data []).isEmpty

/-- Model of `commitFromVersion`: strip one trailing incompatible marker; a
pseudo-version yields the text after its last hyphen, a tagged version is
prefixed with the module directory when that is non-empty. -/
def commitFromVersion (version dir : String) : String :=
  let v := trimSuffix version incompatibleSuffix
  if isPseudoVersion v then
    String.mk (v.data.drop ((lastIndexC v.data '-') + 1).toNat)
  else
    if dir = emptyStr then v else dir ++ slashStr ++ v

/-! ## Template expansion

`expand` builds one old/new pair per map entry and applies a
`strings.Replacer`.  The replacer scans the input once, left to right; at
each position the pairs are compared in argument order and the first whose
old string is a prefix of the remaining input is emitted, the scan resuming
after the matched old string; replacement text is never rescanned.  A pair
with an empty old string never arises from `expand` (every old string is a
braced key) and is ignored here. -/

/-- Single left-to-right replacement scan.  Each step consumes at least one
character, so a fuel of the input length is always enough; the fuel value is
proved irrelevant above that bound below. -/
def goReplaceF (pairs : List (List Char × List Char)) : Nat → List Char → List Char
  | 0, s => s
  | fuel + 1, s =>
    match s with
    | [] => []
    | c :: rest =>
      match pairs.find? (fun p => !p.1.isEmpty && p.1.isPrefixOf (c :: rest)) with
      | some pr => pr.2 ++ goReplaceF pairs fuel (rest.drop (pr.1.length - 1))
      | none => c :: goReplaceF pairs fuel rest

def goReplace (pairs : List (List Char × List Char)) (s : List Char) : List Char :=
  goReplaceF pairs s.length s

/-- The old/new pair an entry of the substitution map contributes: the key
wrapped in braces, and the value. -/
def encodePair (kv : String × String) : List Char × List Char :=
  (lbrace :: kv.1.data ++ [rbrace], kv.2.data)

/-- Model of `expand`.  The Go map iteration order is arbitrary; the
substitutions are passed here as a list in some iteration order.  For the
maps the package builds the result does not depend on that order, which is
proved below. -/
def expand (s : String) (subs : List (String × String)) : String :=
  String.mk (goReplace (subs.map encodePair) s.data)

/-! ## Path joining from the Go standard library -/

/-- Split on slashes, keeping empty segments. -/
def splitSlash : List Char → List (List Char)
  | [] => [[]]
  | c :: rest =>
    match splitSlash rest with
    | [] => [[c]]
    | seg :: segs => if c = '/' then [] :: seg :: segs else (c :: seg) :: segs

/-- Segment processing of `path.Clean`: empty and dot segments vanish; a
dot-dot segment pops a previous segment when one is available, is dropped at
the root of a rooted path, and is kept otherwise.  The accumulator holds the
output segments in reverse order. -/
def cleanFold (rooted : Bool) : List (List Char) → List (List Char) → List (List Char)
  | out, [] => out
  | out, seg :: rest =>
    if seg = [] ∨ seg = ['.'] then cleanFold rooted out rest
    else if seg = ['.', '.'] then
      match out with
      | [] => if rooted then cleanFold rooted [] rest else cleanFold rooted [seg] rest
      | top :: outRest =>
        if top = ['.', '.'] then cleanFold rooted (seg :: top :: outRest) rest
        else cleanFold rooted outRest rest
    else cleanFold rooted (seg :: out) rest

/-- Model of `path.Clean` (lexical cleaning of a slash-separated path). -/
def pathClean (p : String) : String :=
  if p.data = [] then String.mk ['.']
  else
    let rooted := p.data.head? = some '/'
    let out := (cleanFold rooted [] (splitSlash p.data)).reverse
    if out = [] then (if rooted then String.mk ['/'] else String.mk ['.'])
    else String.mk ((if rooted then ['/'] else []) ++ List.intercalate ['/'] out)

/-- Model of `path.Join` applied to two elements, as the accessor methods
call it: empty elements before the first non-empty one are skipped, the rest
joined with a slash and cleaned; all-empty input gives the empty string. -/
def pathJoin2 (a b : String) : String :=
  if a ≠ emptyStr then pathClean (a ++ slashStr ++ b)
  else if b ≠ emptyStr then pathClean b
  else emptyStr

/-! ## The resolved source information and its URL builders -/

/-- The `Info` structure of the source: repository URL, module directory
relative to the repository root, commit reference, and URL templates. -/
structure Info where
  RepoURL : String
  moduleDir : String
  commit : String
  templates : UrlTemplates
deriving DecidableEq, Repr

def keyCommit : String := "commit"

def keyDir : String := "dir"

def keyFile : String := "file"

def keyLine : String := "line"

/-- Model of `Info.DirectoryURL`.  The substitution list is written in the
order of the Go map literal; by the order-independence of `expand` over
these keys, any map iteration order gives the same string. -/
def Info.DirectoryURL (i : Info) (dir : String) : String :=
  trimSuffix
    (expand i.templates.directory
      [(keyRepo, i.RepoURL), (keyCommit, i.commit), (keyDir, pathJoin2 i.moduleDir dir)])
    slashStr

/-- Model of `Info.ModuleURL`. -/
def Info.ModuleURL (i : Info) : String := i.DirectoryURL emptyStr

/-- Model of `Info.FileURL`. -/
def Info.FileURL (i : Info) (pathname : String) : String :=
  expand i.templates.file
    [(keyRepo, i.RepoURL), (keyCommit, i.commit), (keyFile, pathJoin2 i.moduleDir pathname)]

/-- Model of `Info.LineURL`. -/
def Info.LineURL (i : Info) (pathname : String) (line : Int) : String :=
  expand i.templates.line
    [(keyRepo, i.RepoURL), (keyCommit, i.commit),
     (keyFile, pathJoin2 i.moduleDir pathname), (keyLine, itoa line)]

/-! ## matchStatic and the resolution paths -/

/-- Loop body of `matchStatic` for one table entry: when the regular
expression finds a match, the repo is the text of the capture group named
repo, and the directory is the input with the first `len(matches[0])`
characters removed — the length of the matched text, regardless of where
the match began — then one leading slash trimmed. -/
def patResult (p : Pat) (s : String) : Option (String × String × UrlTemplates) :=
  match findSubmatch p s.data with
  | none => none
  | some trip =>
    let repo :=
      match (subexpNamesR p.re).findIdx? (fun nm => nm == keyRepo) with
      | some i => capStr trip.2.2 i
      | none => ""
    let dir := trimPre (String.mk (s.data.drop trip.2.1)) slashStr
    some (repo, dir, p.templates)

/-- The loop of `matchStatic`: patterns are tried in table order and the
first one whose regular expression finds a match is taken. -/
def matchStaticAux : List Pat → String → Option (String × String × UrlTemplates)
  | [], _ => none
  | p :: rest, s =>
    match patResult p s with
    | none => matchStaticAux rest s
    | some r => some r

/-- Model of `matchStatic`; `none` stands for the NotFound error. -/
def matchStatic (modulePathOrRepoURL : String) : Option (String × String × UrlTemplates) :=
  matchStaticAux patterns modulePathOrRepoURL

def httpsScheme : String := "https://"

/-- The static branch of `moduleInfo`: when `matchStatic` succeeds, the Info
is built from its repo, directory and templates, with the commit derived
from the version and directory. -/
def moduleInfoStatic (modulePath version : String) : Option Info :=
  (matchStatic modulePath).map (fun t =>
    { RepoURL := httpsScheme ++ t.1, moduleDir := t.2.1,
      commit := commitFromVersion version t.2.1, templates := t.2.2 })

/-- Modelled from the spec: the metadata fetcher (`fetchMeta`, not under
src/) is an external collaborator returning a discovered repository URL and
a repo root prefix. -/
structure SourceMeta where
  repoURL : String
  repoRootPrefix : String

/-- Modelled from the spec: the result of `net/url.Parse` on the discovered
repository URL, reduced to the hostname and path that `moduleInfoDynamic`
reads from it. -/
structure ParsedURL where
  hostname : String
  path : String

/-- Model of `moduleInfoDynamic` after its context setup: the fetch result
and the parse result enter as values of error-or-value type (a fetch or
parse failure is returned as an error).  When the parsed repository URL
matches no table pattern, the templates are the zero value and the Info is
still returned; the log message emitted in that case is observational only.
The repository URL keeps at most its trailing slash trimmed; the directory
is the module path with the repo root prefix and then one leading slash
trimmed. -/
def moduleInfoDynamicModel (modulePath version : String)
    (fetched : Except String SourceMeta) (parsed : Except String ParsedURL) :
    Except String Info :=
  match fetched with
  | .error e => .error e
  | .ok sm =>
    match parsed with
    | .error e => .error e
    | .ok u =>
      let templates :=
        match matchStatic (pathJoin2 u.hostname u.path) with
        | some t => t.2.2
        | none => emptyTemplates
      let dir := trimPre (trimPre modulePath sm.repoRootPrefix) slashStr
      .ok { RepoURL := trimSuffix sm.repoURL slashStr, moduleDir := dir,
            commit := commitFromVersion version dir, templates := templates }

def missingRepoMsg : String := "pattern missing repo group"

/-- Model of the `init` function: each pattern is checked for a capture
group named repo; the first pattern without one aborts startup, modelled as
an error result carrying the failure message. -/
def initCheck : List Pat → Except String Unit
  | [] => .ok ()
  | p :: rest =>
    if (subexpNamesR p.re).contains keyRepo then initCheck rest
    else .error missingRepoMsg

/-! ## Fuel stability and unfolding equations -/

theorem starVisit_fuel (g : Bool) (body : List Char → Caps → List (Nat × Caps)) :
    ∀ (f1 f2 : Nat) (s : List Char) (caps : Caps),
      s.length < f1 → s.length < f2 →
      starVisit g body f1 s caps = starVisit g body f2 s caps := by
  intro f1
  induction f1 with
  | zero => intro f2 s caps h1 _; exact absurd h1 (by omega)
  | succ a ih =>
    intro f2 s caps h1 h2
    cases f2 with
    | zero => exact absurd h2 (by omega)
    | succ b =>
      simp only [starVisit]
      have hfun : (fun pr : Nat × Caps =>
          if 0 < pr.1 ∧ pr.1 ≤ s.length then
            (starVisit g body a (s.drop pr.1) pr.2).map (fun qr => (pr.1 + qr.1, qr.2))
          else []) =
          (fun pr : Nat × Caps =>
          if 0 < pr.1 ∧ pr.1 ≤ s.length then
            (starVisit g body b (s.drop pr.1) pr.2).map (fun qr => (pr.1 + qr.1, qr.2))
          else []) := by
        funext pr
        by_cases hc : 0 < pr.1 ∧ pr.1 ≤ s.length
        · simp only [if_pos hc]
          rw [ih b (s.drop pr.1) pr.2 (by simp [List.length_drop]; omega)
            (by simp [List.length_drop]; omega)]
        · simp only [if_neg hc]
      rw [hfun]

/-- Unfolding equation for `runs` on a starred expression, with the fuel
eliminated. -/
theorem runs_star (g : Bool) (r : Re) (s : List Char) (caps : Caps) :
    runs (.star g r) s caps =
      (let deeper := (runs r s caps).flatMap (fun pr =>
        if 0 < pr.1 ∧ pr.1 ≤ s.length then
          (runs (.star g r) (s.drop pr.1) pr.2).map (fun qr => (pr.1 + qr.1, qr.2))
        else []);
      if g then deeper ++ [(0, caps)] else (0, caps) :: deeper) := by
  show starVisit g (runs r) (s.length + 1) s caps = _
  simp only [starVisit]
  have hfun : (fun pr : Nat × Caps =>
      if 0 < pr.1 ∧ pr.1 ≤ s.length then
        (starVisit g (runs r) s.length (s.drop pr.1) pr.2).map (fun qr => (pr.1 + qr.1, qr.2))
      else []) =
      (fun pr : Nat × Caps =>
      if 0 < pr.1 ∧ pr.1 ≤ s.length then
        (runs (.star g r) (s.drop pr.1) pr.2).map (fun qr => (pr.1 + qr.1, qr.2))
      else []) := by
    funext pr
    by_cases hc : 0 < pr.1 ∧ pr.1 ≤ s.length
    · simp only [if_pos hc]
      have : runs (.star g r) (s.drop pr.1) pr.2 =
          starVisit g (runs r) ((s.drop pr.1).length + 1) (s.drop pr.1) pr.2 := rfl
      rw [this, starVisit_fuel g (runs r) s.length ((s.drop pr.1).length + 1) (s.drop pr.1)
        pr.2 (by simp [List.length_drop]; omega) (by omega)]
    · simp only [if_neg hc]
  rw [hfun]

theorem goReplaceF_fuel (pairs : List (List Char × List Char)) :
    ∀ (f1 f2 : Nat) (s : List Char), s.length ≤ f1 → s.length ≤ f2 →
      goReplaceF pairs f1 s = goReplaceF pairs f2 s := by
  intro f1
  induction f1 with
  | zero =>
    intro f2 s h1 _
    have hs : s = [] := List.eq_nil_of_length_eq_zero (by omega)
    subst hs
    cases f2 <;> simp [goReplaceF]
  | succ a ih =>
    intro f2 s h1 h2
    cases s with
    | nil => cases f2 <;> simp [goReplaceF]
    | cons c rest =>
      cases f2 with
      | zero => simp at h2
      | succ b =>
        simp only [goReplaceF]
        cases hf : pairs.find? (fun p => !p.1.isEmpty && p.1.isPrefixOf (c :: rest)) with
        | none =>
          dsimp only
          rw [ih b rest (by simp at h1; omega) (by simp at h2; omega)]
        | some pr =>
          dsimp only
          rw [ih b (rest.drop (pr.1.length - 1)) (by simp [List.length_drop] at h1 ⊢; omega)
            (by simp [List.length_drop] at h2 ⊢; omega)]

theorem goReplace_nil (pairs : List (List Char × List Char)) : goReplace pairs [] = [] := rfl

theorem goReplace_cons (pairs : List (List Char × List Char)) (c : Char) (rest : List Char) :
    goReplace pairs (c :: rest) =
      match pairs.find? (fun p => !p.1.isEmpty && p.1.isPrefixOf (c :: rest)) with
      | some pr => pr.2 ++ goReplace pairs (rest.drop (pr.1.length - 1))
      | none => c :: goReplace pairs rest := by
  show goReplaceF pairs (rest.length + 1) (c :: rest) = _
  simp only [goReplaceF]
  cases hf : pairs.find? (fun p => !p.1.isEmpty && p.1.isPrefixOf (c :: rest)) with
  | none => rfl
  | some pr =>
    dsimp only
    rw [goReplaceF_fuel pairs rest.length (rest.drop (pr.1.length - 1)).length
      (rest.drop (pr.1.length - 1)) (by simp [List.length_drop]) (le_refl _)]
    rfl

theorem natDecF_fuel : ∀ (f1 f2 n : Nat), n < f1 → n < f2 → natDecF f1 n = natDecF f2 n := by
  intro f1
  induction f1 with
  | zero => intro f2 n h1 _; exact absurd h1 (by omega)
  | succ a ih =>
    intro f2 n h1 h2
    cases f2 with
    | zero => exact absurd h2 (by omega)
    | succ b =>
      simp only [natDecF]
      by_cases h10 : n < 10
      · simp [h10]
      · have hdiv : n / 10 < n := Nat.div_lt_self (by omega) (by omega)
        simp only [if_neg h10]
        rw [ih b (n / 10) (by omega) (by omega)]

theorem natDec_eq (n : Nat) :
    natDec n = if n < 10 then [digitChar n] else natDec (n / 10) ++ [digitChar (n % 10)] := by
  show natDecF (n + 1) n = _
  simp only [natDecF]
  by_cases h10 : n < 10
  · simp [h10]
  · have hdiv : n / 10 < n := Nat.div_lt_self (by omega) (by omega)
    simp only [if_neg h10]
    rw [natDecF_fuel n (n / 10 + 1) (n / 10) (by omega) (by omega)]
    rfl

/-! ## Claims about evaluation order, validation, and degenerate templates -/

def badC1Input : String := "_foo.com/bar.git"

/-- Claim C1.  The claim states that `matchStatic` returns NotFound exactly
when no pattern matches at the start of the identifier, and that on success
the matched portion is a prefix of the identifier with `dir` the text after
it.  The code violates this: the fourth table pattern is not anchored, so on
the input below it matches starting at position one, yet `dir` is computed
from the match length alone.  No pattern matches at the start of the input,
and the returned directory is the last character of the input rather than
the text following the matched portion (which would be empty). -/
theorem claim_C1_bug :
    (∀ p ∈ patterns, runs p.re badC1Input.data [] = []) ∧
    matchStatic badC1Input = some (("foo.com/bar"), ("t"), emptyTemplates) := by
  constructor
  · decide
  · decide

/-- Claim C4: for a version whose stripped form is not a pseudo-version, the
commit is the stripped form, prefixed by the directory and a slash when the
directory is non-empty; in particular for v1.2.3 with directory sub and with
the empty directory. -/
theorem claim_C4 :
    (∀ version dir : String,
      isPseudoVersion (trimSuffix version incompatibleSuffix) = false →
      commitFromVersion version dir =
        if dir = emptyStr then trimSuffix version incompatibleSuffix
        else dir ++ slashStr ++ trimSuffix version incompatibleSuffix) ∧
    commitFromVersion ("v1.2.3") ("sub") = ("sub/v1.2.3") ∧
    commitFromVersion ("v1.2.3") emptyStr = ("v1.2.3") := by
  refine ⟨fun version dir h => ?_, by decide, by decide⟩
  simp only [commitFromVersion, h]
  simp

/-- Witness for claim C4 at a concrete non-pseudo version and directory. -/
theorem claim_C4_witness :
    isPseudoVersion (trimSuffix ("v9.8.7") incompatibleSuffix) = false ∧
    commitFromVersion ("v9.8.7") ("nested/mod") =
      (if ("nested/mod" : String) = emptyStr then trimSuffix ("v9.8.7") incompatibleSuffix
       else ("nested/mod" : String) ++ slashStr ++ trimSuffix ("v9.8.7") incompatibleSuffix) :=
  ⟨by decide, claim_C4.1 ("v9.8.7") ("nested/mod") (by decide)⟩

/-- Claim C9: when every template of a SourceInfo is empty, every URL
builder returns the empty string, for all directory, path and line
arguments. -/
theorem claim_C9 :
    ∀ i : Info, i.templates = emptyTemplates →
      i.ModuleURL = emptyStr ∧ (∀ d, i.DirectoryURL d = emptyStr) ∧
      (∀ p, i.FileURL p = emptyStr) ∧ (∀ p l, i.LineURL p l = emptyStr) := by
  intro i h
  obtain ⟨r, m, c, t⟩ := i
  simp only at h
  subst h
  exact ⟨rfl, fun _ => rfl, fun _ => rfl, fun _ _ => rfl⟩

def infoNoTemplates : Info :=
  { RepoURL := "https://unknown.example/r", moduleDir := "m", commit := "v1.0.0",
    templates := emptyTemplates }

/-- Witness for claim C9 at a concrete SourceInfo with the zero template
set. -/
theorem claim_C9_witness :
    infoNoTemplates.templates = emptyTemplates ∧
    infoNoTemplates.ModuleURL = emptyStr ∧
    infoNoTemplates.DirectoryURL ("sub") = emptyStr ∧
    infoNoTemplates.FileURL ("a.go") = emptyStr ∧
    infoNoTemplates.LineURL ("a.go") 12 = emptyStr :=
  ⟨rfl, (claim_C9 infoNoTemplates rfl).1,
    (claim_C9 infoNoTemplates rfl).2.1 ("sub"),
    (claim_C9 infoNoTemplates rfl).2.2.1 ("a.go"),
    (claim_C9 infoNoTemplates rfl).2.2.2 ("a.go") 12⟩

/-- Claim C7: in dynamic resolution, when the discovered repository URL
parses but its hostname and path match no table pattern, the request still
succeeds and the returned SourceInfo carries the zero template set. -/
theorem claim_C7 :
    ∀ (modulePath version : String) (sm : SourceMeta) (u : ParsedURL),
      matchStatic (pathJoin2 u.hostname u.path) = none →
      moduleInfoDynamicModel modulePath version (.ok sm) (.ok u) =
        .ok { RepoURL := trimSuffix sm.repoURL slashStr,
              moduleDir := trimPre (trimPre modulePath sm.repoRootPrefix) slashStr,
              commit := commitFromVersion version
                (trimPre (trimPre modulePath sm.repoRootPrefix) slashStr),
              templates := emptyTemplates } := by
  intro mp v sm u h
  simp only [moduleInfoDynamicModel, h]

def smUnknownHost : SourceMeta :=
  { repoURL := "https://example.com/r/", repoRootPrefix := "example.com/r" }

def urlUnknownHost : ParsedURL := { hostname := "example.com", path := "/r" }

/-- Witness for claim C7 at a concrete discovered repository on an
unrecognized host. -/
theorem claim_C7_witness :
    matchStatic (pathJoin2 urlUnknownHost.hostname urlUnknownHost.path) = none ∧
    moduleInfoDynamicModel ("example.com/r/sub") ("v1.0.0")
        (.ok smUnknownHost) (.ok urlUnknownHost) =
      .ok { RepoURL := trimSuffix smUnknownHost.repoURL slashStr,
            moduleDir := trimPre (trimPre ("example.com/r/sub") smUnknownHost.repoRootPrefix)
              slashStr,
            commit := commitFromVersion ("v1.0.0")
              (trimPre (trimPre ("example.com/r/sub") smUnknownHost.repoRootPrefix) slashStr),
            templates := emptyTemplates } :=
  ⟨by decide, claim_C7 ("example.com/r/sub") ("v1.0.0") smUnknownHost urlUnknownHost (by decide)⟩

/-- Claim C8: a table in which some entry lacks a capture group named repo
makes startup validation abort, and the actual table passes it. -/
theorem claim_C8 :
    (∀ tbl : List Pat,
      (∃ p ∈ tbl, ((subexpNamesR p.re).contains keyRepo) = false) →
      ∃ e, initCheck tbl = .error e) ∧
    initCheck patterns = .ok () := by
  constructor
  · intro tbl
    induction tbl with
    | nil => rintro ⟨p, hp, _⟩; simp at hp
    | cons q rest ih =>
      rintro ⟨p, hp, hno⟩
      by_cases hq : ((subexpNamesR q.re).contains keyRepo) = true
      · have hpr : p ∈ rest := by
          rcases List.mem_cons.mp hp with h | h
          · subst h; rw [hno] at hq; exact absurd hq (by simp)
          · exact h
        obtain ⟨e, he⟩ := ih ⟨p, hpr, hno⟩
        have hmem : keyRepo ∈ subexpNamesR q.re := by simpa using hq
        exact ⟨e, by simpa [initCheck, hmem] using he⟩
      · have hmem : keyRepo ∉ subexpNamesR q.re := by simpa using hq
        exact ⟨missingRepoMsg, by simp [initCheck, hmem]⟩
  · rfl

def dummyPat : Pat := { anchored := true, re := .eps, templates := emptyTemplates }

/-- Witness for claim C8: a one-entry table whose pattern has no groups at
all fails validation. -/
theorem claim_C8_witness :
    ((subexpNamesR dummyPat.re).contains keyRepo) = false ∧
    ∃ e, initCheck [dummyPat] = .error e :=
  ⟨by decide, claim_C8.1 [dummyPat] ⟨dummyPat, by simp, by decide⟩⟩

/-- The loop of `matchStatic` returns the result of the first matching
pattern: if nothing before index `i` matches and pattern `i` matches, the
result is that of pattern `i`. -/
theorem matchStaticAux_first (s : String) :
    ∀ (l : List Pat) (i : Nat), i < l.length →
      (∀ k, k < i → patResult (l.getD k dummyPat) s = none) →
      patResult (l.getD i dummyPat) s ≠ none →
      matchStaticAux l s = patResult (l.getD i dummyPat) s := by
  intro l
  induction l with
  | nil => intro i hi; simp at hi
  | cons p rest ih =>
    intro i hi hbefore hmatch
    cases i with
    | zero =>
      simp only [List.getD_cons_zero] at hmatch ⊢
      simp only [matchStaticAux]
      cases hp : patResult p s with
      | none => exact absurd hp hmatch
      | some r => rfl
    | succ n =>
      have hp0 : patResult p s = none := by
        have := hbefore 0 (Nat.succ_pos n)
        simpa using this
      simp only [matchStaticAux, hp0]
      simp only [List.getD_cons_succ] at hmatch ⊢
      exact ih n (by simpa using hi) (fun k hk => by simpa using hbefore (k + 1) (by omega))
        hmatch

/-- Claim C5: the patterns are evaluated strictly in table order; when two
patterns both match the identifier and nothing earlier than the first of
them matches, the result is that of the earlier pattern, regardless of the
lengths of the matches. -/
theorem claim_C5 :
    ∀ (s : String) (i j : Nat), i < j → j < patterns.length →
      (∀ k, k < i → patResult (patterns.getD k dummyPat) s = none) →
      patResult (patterns.getD i dummyPat) s ≠ none →
      patResult (patterns.getD j dummyPat) s ≠ none →
      matchStatic s = patResult (patterns.getD i dummyPat) s := by
  intro s i j hij hj hb hi _
  exact matchStaticAux_first s patterns i (by omega) hb hi

def c5Input : String := "github.com/a/b.git"

/-- Witness for claim C5: the input matches both the github pattern (which
takes all of it, dot-git included, into the repo) and the generic
version-control-suffix pattern; the github pattern is listed first and its
result is returned. -/
theorem claim_C5_witness :
    patResult (patterns.getD 0 dummyPat) c5Input ≠ none ∧
    patResult (patterns.getD 3 dummyPat) c5Input ≠ none ∧
    matchStatic c5Input = patResult (patterns.getD 0 dummyPat) c5Input :=
  ⟨by decide, by decide,
    claim_C5 c5Input 0 3 (by omega) (by decide) (fun k hk => absurd hk (by omega))
      (by decide) (by decide)⟩

/-! ## Symbolic template expansion -/

theorem goReplace_emit (pairs : List (List Char × List Char)) (old new rest : List Char)
    (hfind : pairs.find? (fun p => !p.1.isEmpty && p.1.isPrefixOf (old ++ rest)) =
      some (old, new)) :
    goReplace pairs (old ++ rest) = new ++ goReplace pairs rest := by
  have hsat := List.find?_some hfind
  have hne : old ≠ [] := by
    intro h
    subst h
    simp at hsat
  obtain ⟨c, tl, rfl⟩ := List.exists_cons_of_ne_nil hne
  simp only [List.cons_append] at hfind ⊢
  rw [goReplace_cons, hfind]
  dsimp only
  congr 1
  rw [show (c :: tl).length - 1 = tl.length from by simp]
  rw [List.drop_left]

theorem goReplace_skip_nolb (pairs : List (List Char × List Char))
    (hpairs : ∀ p ∈ pairs, ∃ k, p.1 = lbrace :: k) :
    ∀ (lit rest : List Char), lbrace ∉ lit →
      goReplace pairs (lit ++ rest) = lit ++ goReplace pairs rest := by
  intro lit
  induction lit with
  | nil => intro rest _; simp
  | cons c l ih =>
    intro rest hlb
    have hc : lbrace ≠ c := by
      intro h
      exact hlb (by simp [h])
    rw [List.cons_append, goReplace_cons]
    have hfind : pairs.find?
        (fun p => !p.1.isEmpty && p.1.isPrefixOf (c :: (l ++ rest))) = none := by
      apply List.find?_eq_none.mpr
      intro p hp
      obtain ⟨k, hk⟩ := hpairs p hp
      have hbc : (lbrace == c) = false := beq_eq_false_iff_ne.mpr hc
      simp [hk, List.isPrefixOf, hbc]
    rw [hfind]
    dsimp only
    rw [ih rest (fun h => hlb (by simp [h]))]
    simp

theorem encodePair_heads (subs : List (String × String)) :
    ∀ p ∈ subs.map encodePair, ∃ k, p.1 = lbrace :: k := by
  intro p hp
  obtain ⟨kv, _, rfl⟩ := List.mem_map.mp hp
  exact ⟨kv.1.data ++ [rbrace], rfl⟩

theorem expand_github_dir (R C D : String) :
    expand githubURLTemplates.directory [(keyRepo, R), (keyCommit, C), (keyDir, D)] =
      R ++ ("/tree/" : String) ++ C ++ slashStr ++ D := by
  apply String.ext
  show goReplace ([(keyRepo, R), (keyCommit, C), (keyDir, D)].map encodePair) (("{repo}/tree/{commit}/{dir}" : String).data) = _
  have h1 : (("{repo}/tree/{commit}/{dir}" : String).data) = (("{repo}" : String).data ++ (("/tree/" : String).data ++ (("{commit}" : String).data ++ (("/" : String).data ++ (("{dir}" : String).data ++ ([] : List Char)))))) := by decide
  rw [h1]
  rw [goReplace_emit ([(keyRepo, R), (keyCommit, C), (keyDir, D)].map encodePair) (("{repo}" : String).data) (R.data) ((("/tree/" : String).data ++ (("{commit}" : String).data ++ (("/" : String).data ++ (("{dir}" : String).data ++ ([] : List Char)))))) rfl]
  rw [goReplace_skip_nolb ([(keyRepo, R), (keyCommit, C), (keyDir, D)].map encodePair) (encodePair_heads _) (("/tree/" : String).data) ((("{commit}" : String).data ++ (("/" : String).data ++ (("{dir}" : String).data ++ ([] : List Char))))) (by decide)]
  rw [goReplace_emit ([(keyRepo, R), (keyCommit, C), (keyDir, D)].map encodePair) (("{commit}" : String).data) (C.data) ((("/" : String).data ++ (("{dir}" : String).data ++ ([] : List Char)))) rfl]
  rw [goReplace_skip_nolb ([(keyRepo, R), (keyCommit, C), (keyDir, D)].map encodePair) (encodePair_heads _) (("/" : String).data) ((("{dir}" : String).data ++ ([] : List Char))) (by decide)]
  rw [goReplace_emit ([(keyRepo, R), (keyCommit, C), (keyDir, D)].map encodePair) (("{dir}" : String).data) (D.data) (([] : List Char)) rfl]
  rw [goReplace_nil]
  simp [String.data_append, List.append_assoc, slashStr]

theorem expand_github_file (R C F : String) :
    expand githubURLTemplates.file [(keyRepo, R), (keyCommit, C), (keyFile, F)] =
      R ++ ("/blob/" : String) ++ C ++ slashStr ++ F := by
  apply String.ext
  show goReplace ([(keyRepo, R), (keyCommit, C), (keyFile, F)].map encodePair) (("{repo}/blob/{commit}/{file}" : String).data) = _
  have h1 : (("{repo}/blob/{commit}/{file}" : String).data) = (("{repo}" : String).data ++ (("/blob/" : String).data ++ (("{commit}" : String).data ++ (("/" : String).data ++ (("{file}" : String).data ++ ([] : List Char)))))) := by decide
  rw [h1]
  rw [goReplace_emit ([(keyRepo, R), (keyCommit, C), (keyFile, F)].map encodePair) (("{repo}" : String).data) (R.data) ((("/blob/" : String).data ++ (("{commit}" : String).data ++ (("/" : String).data ++ (("{file}" : String).data ++ ([] : List Char)))))) rfl]
  rw [goReplace_skip_nolb ([(keyRepo, R), (keyCommit, C), (keyFile, F)].map encodePair) (encodePair_heads _) (("/blob/" : String).data) ((("{commit}" : String).data ++ (("/" : String).data ++ (("{file}" : String).data ++ ([] : List Char))))) (by decide)]
  rw [goReplace_emit ([(keyRepo, R), (keyCommit, C), (keyFile, F)].map encodePair) (("{commit}" : String).data) (C.data) ((("/" : String).data ++ (("{file}" : String).data ++ ([] : List Char)))) rfl]
  rw [goReplace_skip_nolb ([(keyRepo, R), (keyCommit, C), (keyFile, F)].map encodePair) (encodePair_heads _) (("/" : String).data) ((("{file}" : String).data ++ ([] : List Char))) (by decide)]
  rw [goReplace_emit ([(keyRepo, R), (keyCommit, C), (keyFile, F)].map encodePair) (("{file}" : String).data) (F.data) (([] : List Char)) rfl]
  rw [goReplace_nil]
  simp [String.data_append, List.append_assoc, slashStr]

theorem expand_github_line (R C F L : String) :
    expand githubURLTemplates.line [(keyRepo, R), (keyCommit, C), (keyFile, F), (keyLine, L)] =
      R ++ ("/blob/" : String) ++ C ++ slashStr ++ F ++ ("#L" : String) ++ L := by
  apply String.ext
  show goReplace ([(keyRepo, R), (keyCommit, C), (keyFile, F), (keyLine, L)].map encodePair) (("{repo}/blob/{commit}/{file}#L{line}" : String).data) = _
  have h1 : (("{repo}/blob/{commit}/{file}#L{line}" : String).data) = (("{repo}" : String).data ++ (("/blob/" : String).data ++ (("{commit}" : String).data ++ (("/" : String).data ++ (("{file}" : String).data ++ (("#L" : String).data ++ (("{line}" : String).data ++ ([] : List Char)))))))) := by decide
  rw [h1]
  rw [goReplace_emit ([(keyRepo, R), (keyCommit, C), (keyFile, F), (keyLine, L)].map encodePair) (("{repo}" : String).data) (R.data) ((("/blob/" : String).data ++ (("{commit}" : String).data ++ (("/" : String).data ++ (("{file}" : String).data ++ (("#L" : String).data ++ (("{line}" : String).data ++ ([] : List Char)))))))) rfl]
  rw [goReplace_skip_nolb ([(keyRepo, R), (keyCommit, C), (keyFile, F), (keyLine, L)].map encodePair) (encodePair_heads _) (("/blob/" : String).data) ((("{commit}" : String).data ++ (("/" : String).data ++ (("{file}" : String).data ++ (("#L" : String).data ++ (("{line}" : String).data ++ ([] : List Char))))))) (by decide)]
  rw [goReplace_emit ([(keyRepo, R), (keyCommit, C), (keyFile, F), (keyLine, L)].map encodePair) (("{commit}" : String).data) (C.data) ((("/" : String).data ++ (("{file}" : String).data ++ (("#L" : String).data ++ (("{line}" : String).data ++ ([] : List Char)))))) rfl]
  rw [goReplace_skip_nolb ([(keyRepo, R), (keyCommit, C), (keyFile, F), (keyLine, L)].map encodePair) (encodePair_heads _) (("/" : String).data) ((("{file}" : String).data ++ (("#L" : String).data ++ (("{line}" : String).data ++ ([] : List Char))))) (by decide)]
  rw [goReplace_emit ([(keyRepo, R), (keyCommit, C), (keyFile, F), (keyLine, L)].map encodePair) (("{file}" : String).data) (F.data) ((("#L" : String).data ++ (("{line}" : String).data ++ ([] : List Char)))) rfl]
  rw [goReplace_skip_nolb ([(keyRepo, R), (keyCommit, C), (keyFile, F), (keyLine, L)].map encodePair) (encodePair_heads _) (("#L" : String).data) ((("{line}" : String).data ++ ([] : List Char))) (by decide)]
  rw [goReplace_emit ([(keyRepo, R), (keyCommit, C), (keyFile, F), (keyLine, L)].map encodePair) (("{line}" : String).data) (L.data) (([] : List Char)) rfl]
  rw [goReplace_nil]
  simp [String.data_append, List.append_assoc, slashStr]

/-! ## Decimal rendering and the line URL builder -/

theorem natDec_digits : ∀ n : Nat, 0 < n →
    natDec n = ((Nat.digits 10 n).map digitChar).reverse := by
  intro n
  induction n using Nat.strong_induction_on with
  | _ n ih =>
    intro hn
    rw [natDec_eq]
    by_cases h10 : n < 10
    · rw [if_pos h10]
      rw [Nat.digits_def' (by omega : (1 : Nat) < 10) hn]
      have hq : n / 10 = 0 := Nat.div_eq_of_lt h10
      simp [hq, Nat.mod_eq_of_lt h10]
    · rw [if_neg h10]
      have hdiv : n / 10 < n := Nat.div_lt_self hn (by omega)
      have hdivpos : 0 < n / 10 := Nat.div_pos (by omega) (by omega)
      rw [ih (n / 10) hdiv hdivpos]
      rw [Nat.digits_def' (by omega : (1 : Nat) < 10) hn]
      simp

/-- Claim C10: the line URL builder is total over every integer line number,
substituting the signed base-ten decimal rendering of the line with no
validation or clamping; stated for the github template set, whose line
template carries the hash-L anchor, together with the characterization of
the rendering (digits from `Nat.digits` for the magnitude, a minus sign for
negatives) and its values at zero and minus one. -/
theorem claim_C10 :
    (∀ (i : Info) (p : String) (line : Int), i.templates = githubURLTemplates →
      i.LineURL p line = i.RepoURL ++ ("/blob/" : String) ++ i.commit ++ slashStr ++
        pathJoin2 i.moduleDir p ++ ("#L" : String) ++ itoa line) ∧
    (∀ n : Nat, 0 < n → natDec n = ((Nat.digits 10 n).map digitChar).reverse) ∧
    natDec 0 = [('0')] ∧
    (∀ z : Int, z < 0 → itoa z = String.mk (('-') :: natDec z.natAbs)) ∧
    (∀ z : Int, 0 ≤ z → itoa z = String.mk (natDec z.toNat)) ∧
    itoa 0 = ("0") ∧ itoa (-1) = ("-1") := by
  refine ⟨?_, natDec_digits, by decide, ?_, ?_, by decide, by decide⟩
  · intro i p line h
    obtain ⟨r, m, c, t⟩ := i
    simp only at h
    subst h
    show expand githubURLTemplates.line
      [(keyRepo, r), (keyCommit, c), (keyFile, pathJoin2 m p), (keyLine, itoa line)] = _
    rw [expand_github_line]
  · intro z hz
    simp [itoa, hz]
  · intro z hz
    have : ¬ z < 0 := by omega
    simp [itoa, this]

def c10Info : Info :=
  { RepoURL := "https://github.com/a/b", moduleDir := "", commit := "v1.2.3",
    templates := githubURLTemplates }

/-- Witness for claim C10 at a concrete SourceInfo and a negative line
number. -/
theorem claim_C10_witness :
    c10Info.templates = githubURLTemplates ∧
    c10Info.LineURL ("x.go") (-2) = c10Info.RepoURL ++ ("/blob/" : String) ++ c10Info.commit ++
      slashStr ++ pathJoin2 c10Info.moduleDir ("x.go") ++ ("#L" : String) ++ itoa (-2) ∧
    (-2 : Int) < 0 ∧ itoa (-2) = String.mk (('-') :: natDec (Int.natAbs (-2))) :=
  ⟨rfl, claim_C10.1 c10Info ("x.go") (-2) rfl, by decide,
    claim_C10.2.2.2.1 (-2) (by decide)⟩

/-! ## Helpers for trimming and appending -/

theorem append_emptyStr (x : String) : x ++ emptyStr = x := by
  apply String.ext
  rw [String.data_append]
  simp [emptyStr]

theorem trimSuffix_of_not_suffix (v suf : String)
    (h : suf.data.isSuffixOf v.data = false) : trimSuffix v suf = v := by
  simp [trimSuffix, h]

theorem trimSuffix_slash (x : String) : trimSuffix (x ++ slashStr) slashStr = x := by
  have hsuf : slashStr.data.isSuffixOf (x.data ++ slashStr.data) = true := by
    rw [List.isSuffixOf_iff_suffix]
    exact List.suffix_append x.data slashStr.data
  apply String.ext
  simp only [trimSuffix, String.data_append, hsuf, if_true]
  show (x.data ++ slashStr.data).take ((x.data ++ slashStr.data).length - slashStr.data.length)
    = x.data
  rw [show slashStr.data = [('/')] from rfl]
  simp

/-! ## The github URL convention claim -/

/-- Claim C6, amended.  For an identifier matched by the github convention
with captured repo R and empty module directory, and a non-pseudo version V,
the claim states DirectoryURL of the empty string is https, R, tree, V and
FileURL of x is https, R, blob, V, x.  As stated the claim fails for a
version carrying the incompatible marker, whose commit is the stripped
string; the amendment adds that V does not end in the marker. -/
theorem claim_C6_amended :
    ∀ (idf V R : String),
      matchStatic idf = some (R, emptyStr, githubURLTemplates) →
      isPseudoVersion (trimSuffix V incompatibleSuffix) = false →
      incompatibleSuffix.data.isSuffixOf V.data = false →
      ∃ info, moduleInfoStatic idf V = some info ∧
        info.DirectoryURL emptyStr = httpsScheme ++ R ++ ("/tree/" : String) ++ V ∧
        info.FileURL ("x") = httpsScheme ++ R ++ ("/blob/" : String) ++ V ++ ("/x" : String) := by
  intro idf V R hm hp hsuf
  have htrim : trimSuffix V incompatibleSuffix = V := trimSuffix_of_not_suffix V _ hsuf
  rw [htrim] at hp
  have hcommit : commitFromVersion V emptyStr = V := by
    simp [commitFromVersion, htrim, hp]
  refine ⟨{ RepoURL := httpsScheme ++ R, moduleDir := emptyStr,
            commit := commitFromVersion V emptyStr, templates := githubURLTemplates },
    ?_, ?_, ?_⟩
  · simp [moduleInfoStatic, hm]
  · show trimSuffix (expand githubURLTemplates.directory
      [(keyRepo, httpsScheme ++ R), (keyCommit, commitFromVersion V emptyStr),
        (keyDir, pathJoin2 emptyStr emptyStr)]) slashStr = _
    rw [hcommit, show pathJoin2 emptyStr emptyStr = emptyStr from rfl, expand_github_dir,
      append_emptyStr, trimSuffix_slash]
  · show expand githubURLTemplates.file
      [(keyRepo, httpsScheme ++ R), (keyCommit, commitFromVersion V emptyStr),
        (keyFile, pathJoin2 emptyStr ("x"))] = _
    rw [hcommit, show pathJoin2 emptyStr ("x") = ("x" : String) from by decide,
      expand_github_file]
    apply String.ext
    simp [String.data_append, List.append_assoc, slashStr]

def c6Id : String := "github.com/a/b"

def c6V : String := "v2.0.0+incompatible"

/-- Counterexample to claim C6 as stated: the identifier is matched by the
github convention with captured repo github.com/a/b and empty directory, the
version is not a pseudo-version, yet DirectoryURL of the empty string is the
tree URL of the stripped commit v2.0.0, not of V itself. -/
theorem claim_C6_counterexample :
    matchStatic c6Id = some (("github.com/a/b"), emptyStr, githubURLTemplates) ∧
    isPseudoVersion (trimSuffix c6V incompatibleSuffix) = false ∧
    (moduleInfoStatic c6Id c6V).map (fun info => info.DirectoryURL emptyStr) =
      some (("https://github.com/a/b/tree/v2.0.0")) ∧
    (("https://github.com/a/b/tree/v2.0.0") : String) ≠
      httpsScheme ++ ("github.com/a/b") ++ ("/tree/" : String) ++ c6V := by
  refine ⟨by decide, by decide, by decide, by decide⟩

/-- Witness for the amended claim C6 at a concrete identifier and
version. -/
theorem claim_C6_witness :
    matchStatic ("github.com/a/b") = some (("github.com/a/b"), emptyStr, githubURLTemplates) ∧
    isPseudoVersion (trimSuffix ("v1.2.3") incompatibleSuffix) = false ∧
    incompatibleSuffix.data.isSuffixOf ("v1.2.3" : String).data = false ∧
    ∃ info, moduleInfoStatic ("github.com/a/b") ("v1.2.3") = some info ∧
      info.DirectoryURL emptyStr =
        httpsScheme ++ ("github.com/a/b") ++ ("/tree/" : String) ++ ("v1.2.3") ∧
      info.FileURL ("x") =
        httpsScheme ++ ("github.com/a/b") ++ ("/blob/" : String) ++ ("v1.2.3") ++
          ("/x" : String) :=
  ⟨by decide, by decide, by decide,
    claim_C6_amended ("github.com/a/b") ("v1.2.3") ("github.com/a/b")
      (by decide) (by decide) (by decide)⟩

/-! ## Order independence of template expansion

The substitutions passed to `expand` come from a Go map, whose iteration
order is arbitrary.  For the maps this package builds — distinct keys, none
containing a closing brace — the braced patterns form a prefix-free family,
so at most one pair can match at any position of the scan and the scan is
independent of the pair order.  A key containing a closing brace breaks
prefix-freeness and with it order independence, which is the content of the
counterexample below. -/

theorem perm_eq_of_short {α : Type} {l1 l2 : List α} (h : l1.Perm l2)
    (hlen : l1.length ≤ 1) : l1 = l2 := by
  match l1, hlen with
  | [], _ => exact (List.nil_perm.mp h).symm
  | [a], _ => exact (List.perm_singleton.mp h.symm).symm
  | a :: b :: t, hlen => simp at hlen

theorem find?_congr_perm {α : Type} {l1 l2 : List α} (p : α → Bool) (hperm : l1.Perm l2)
    (hnd : l1.Nodup)
    (huniq : ∀ a ∈ l1, ∀ b ∈ l1, p a = true → p b = true → a = b) :
    l1.find? p = l2.find? p := by
  rw [← List.filter_head? p l1, ← List.filter_head? p l2]
  have hsub : (l1.filter p).length ≤ 1 := by
    rcases hf : l1.filter p with _ | ⟨a, rest⟩
    · simp
    · rcases rest with _ | ⟨b, t⟩
      · simp
      · exfalso
        have hnf : (l1.filter p).Nodup := hnd.filter p
        rw [hf] at hnf
        have ha : a ∈ l1.filter p := by rw [hf]; simp
        have hb : b ∈ l1.filter p := by rw [hf]; simp
        have ha' := List.mem_filter.mp ha
        have hb' := List.mem_filter.mp hb
        have hab : a = b := huniq a ha'.1 b hb'.1 ha'.2 hb'.2
        subst hab
        simp at hnf
  exact congrArg List.head? (perm_eq_of_short (hperm.filter p) hsub)

theorem brace_key_eq (k1 k2 : List Char) (h1 : rbrace ∉ k1) (h2 : rbrace ∉ k2)
    (hp : (lbrace :: (k1 ++ [rbrace])) <+: (lbrace :: (k2 ++ [rbrace]))) : k1 = k2 := by
  have hp' : (k1 ++ [rbrace]) <+: (k2 ++ [rbrace]) := (List.cons_prefix_cons.mp hp).2
  rcases Nat.lt_or_ge k1.length k2.length with hlt | hge
  · exfalso
    have htk : k1 ++ [rbrace] = (k2 ++ [rbrace]).take (k1.length + 1) := by
      have := List.prefix_iff_eq_take.mp hp'
      simpa using this
    have htake : (k2 ++ [rbrace]).take (k1.length + 1) = k2.take (k1.length + 1) := by
      rw [List.take_append_eq_append_take]
      have hz : k1.length + 1 - k2.length = 0 := by omega
      simp [hz]
    have hmem : rbrace ∈ k2.take (k1.length + 1) := by
      rw [← htake, ← htk]
      simp
    exact h2 (List.take_subset _ _ hmem)
  · have hlen : k1.length + 1 ≤ k2.length + 1 := by simpa using hp'.length_le
    have heq : k1.length = k2.length := by omega
    have := List.IsPrefix.eq_of_length hp' (by simp [heq])
    exact (List.append_left_inj _).mp this

theorem encodePair_injective : Function.Injective encodePair := by
  intro kv1 kv2 h
  have h1 : lbrace :: (kv1.1.data ++ [rbrace]) = lbrace :: (kv2.1.data ++ [rbrace]) :=
    congrArg Prod.fst h
  have h2 : kv1.2.data = kv2.2.data := congrArg Prod.snd h
  have h1' : kv1.1.data ++ [rbrace] = kv2.1.data ++ [rbrace] := by
    injection h1
  have hk : kv1.1 = kv2.1 := String.ext ((List.append_left_inj _).mp h1')
  have hv : kv1.2 = kv2.2 := String.ext h2
  exact Prod.ext hk hv

theorem encodePair_fst_pref_eq (kv1 kv2 : String × String)
    (h1 : rbrace ∉ kv1.1.data) (h2 : rbrace ∉ kv2.1.data) (s : List Char)
    (hp1 : (encodePair kv1).1.isPrefixOf s = true)
    (hp2 : (encodePair kv2).1.isPrefixOf s = true) :
    kv1.1 = kv2.1 := by
  rw [List.isPrefixOf_iff_prefix] at hp1 hp2
  rcases List.prefix_or_prefix_of_prefix hp1 hp2 with h | h
  · exact String.ext (brace_key_eq _ _ h1 h2 (by simpa [encodePair] using h))
  · exact (String.ext (brace_key_eq _ _ h2 h1 (by simpa [encodePair] using h))).symm

theorem goReplace_subs_perm (subs1 subs2 : List (String × String))
    (hperm : subs1.Perm subs2) (hnd : (subs1.map Prod.fst).Nodup)
    (hkeys : ∀ k ∈ subs1.map Prod.fst, rbrace ∉ k.data) :
    ∀ s : List Char,
      goReplace (subs1.map encodePair) s = goReplace (subs2.map encodePair) s := by
  have main : ∀ (n : Nat) (s : List Char), s.length ≤ n →
      goReplace (subs1.map encodePair) s = goReplace (subs2.map encodePair) s := by
    intro n
    induction n with
    | zero =>
      intro s hs
      have : s = [] := List.eq_nil_of_length_eq_zero (by omega)
      subst this
      rfl
    | succ m ih =>
      intro s hs
      cases s with
      | nil => rfl
      | cons c rest =>
        have hfind : (subs1.map encodePair).find?
              (fun p => !p.1.isEmpty && p.1.isPrefixOf (c :: rest)) =
            (subs2.map encodePair).find?
              (fun p => !p.1.isEmpty && p.1.isPrefixOf (c :: rest)) := by
          apply find?_congr_perm _ (hperm.map encodePair)
          · exact (hnd.of_map).map encodePair_injective
          · intro a ha b hb hpa hpb
            obtain ⟨kv1, hkv1, rfl⟩ := List.mem_map.mp ha
            obtain ⟨kv2, hkv2, rfl⟩ := List.mem_map.mp hb
            have hk1 : rbrace ∉ kv1.1.data := hkeys _ (List.mem_map_of_mem _ hkv1)
            have hk2 : rbrace ∉ kv2.1.data := hkeys _ (List.mem_map_of_mem _ hkv2)
            have hpa' : (encodePair kv1).1.isPrefixOf (c :: rest) = true := by
              simp only [Bool.and_eq_true] at hpa
              exact hpa.2
            have hpb' : (encodePair kv2).1.isPrefixOf (c :: rest) = true := by
              simp only [Bool.and_eq_true] at hpb
              exact hpb.2
            have hkeq : kv1.1 = kv2.1 :=
              encodePair_fst_pref_eq kv1 kv2 hk1 hk2 (c :: rest) hpa' hpb'
            have : kv1 = kv2 := List.inj_on_of_nodup_map hnd hkv1 hkv2 hkeq
            rw [this]
        rw [goReplace_cons, goReplace_cons, hfind]
        cases hf : (subs2.map encodePair).find?
            (fun p => !p.1.isEmpty && p.1.isPrefixOf (c :: rest)) with
        | none =>
          dsimp only
          rw [ih rest (by simp at hs; omega)]
        | some pr =>
          dsimp only
          rw [ih (rest.drop (pr.1.length - 1)) (by simp [List.length_drop] at hs ⊢; omega)]
  exact fun s => main s.length s (le_refl _)

theorem find?_eq_of_mem_unique {α : Type} {l : List α} {a : α} (p : α → Bool) (ha : a ∈ l)
    (hpa : p a = true) (huniq : ∀ b ∈ l, p b = true → b = a) : l.find? p = some a := by
  induction l with
  | nil => cases ha
  | cons x xs ih =>
    by_cases hx : p x = true
    · have hxa : x = a := huniq x (by simp) hx
      subst hxa
      simp [List.find?_cons, hx]
    · have hx' : p x = false := by revert hx; cases p x <;> simp
      have hxa : x ≠ a := fun h => hx (h ▸ hpa)
      have ha' : a ∈ xs := by
        rcases List.mem_cons.mp ha with h | h
        · exact absurd h.symm hxa
        · exact h
      rw [List.find?_cons, hx']
      exact ih ha' (fun b hb hpb => huniq b (List.mem_cons_of_mem _ hb) hpb)

theorem expand_token (subs : List (String × String)) (kv : String × String)
    (hmem : kv ∈ subs) (hnd : (subs.map Prod.fst).Nodup)
    (hkeys : ∀ k ∈ subs.map Prod.fst, rbrace ∉ k.data) :
    expand (String.mk (lbrace :: (kv.1.data ++ [rbrace]))) subs = kv.2 := by
  have hself : (encodePair kv).1.isPrefixOf (lbrace :: (kv.1.data ++ [rbrace])) = true := by
    rw [List.isPrefixOf_iff_prefix]
    exact List.prefix_refl _
  have hfind : (subs.map encodePair).find?
      (fun p => !p.1.isEmpty && p.1.isPrefixOf (lbrace :: (kv.1.data ++ [rbrace]))) =
      some (encodePair kv) := by
    apply find?_eq_of_mem_unique
    · exact List.mem_map_of_mem _ hmem
    · simp only [Bool.and_eq_true]
      exact ⟨by simp [encodePair], hself⟩
    · intro b hb hpb
      obtain ⟨kv2, hkv2, rfl⟩ := List.mem_map.mp hb
      have hk1 : rbrace ∉ kv2.1.data := hkeys _ (List.mem_map_of_mem _ hkv2)
      have hk2 : rbrace ∉ kv.1.data := hkeys _ (List.mem_map_of_mem _ hmem)
      have hpb' : (encodePair kv2).1.isPrefixOf (lbrace :: (kv.1.data ++ [rbrace])) = true := by
        simp only [Bool.and_eq_true] at hpb
        exact hpb.2
      have hkeq : kv2.1 = kv.1 :=
        encodePair_fst_pref_eq kv2 kv hk1 hk2 _ hpb' hself
      have : kv2 = kv := List.inj_on_of_nodup_map hnd hkv2 hmem hkeq
      rw [this]
  show String.mk (goReplace (subs.map encodePair) (lbrace :: (kv.1.data ++ [rbrace]))) = kv.2
  rw [goReplace_cons, hfind]
  dsimp only
  have hdrop : (kv.1.data ++ [rbrace]).drop ((encodePair kv).1.length - 1) = [] := by
    apply List.drop_eq_nil_of_le
    simp [encodePair]
  rw [hdrop, goReplace_nil, List.append_nil]
  exact rfl

/-- Claim C3, amended.  For a substitution map with distinct keys none of
which contains a closing brace (as is the case for every map the package
builds, whose keys are repo, commit, dir, file and line), the output of
`expand` is the same for every iteration order of the map, and a braced key
token expands to exactly the value of that key, which is never rescanned for
further tokens.  As stated over all maps the claim fails: a key containing a
closing brace breaks order independence, as the counterexample shows. -/
theorem claim_C3_amended :
    ∀ (s : String) (subs1 subs2 : List (String × String)),
      subs1.Perm subs2 → (subs1.map Prod.fst).Nodup →
      (∀ k ∈ subs1.map Prod.fst, rbrace ∉ k.data) →
      expand s subs1 = expand s subs2 ∧
      ∀ kv ∈ subs1, expand (String.mk (lbrace :: (kv.1.data ++ [rbrace]))) subs1 = kv.2 := by
  intro s subs1 subs2 hperm hnd hkeys
  exact ⟨congrArg String.mk (goReplace_subs_perm subs1 subs2 hperm hnd hkeys s.data),
    fun kv hkv => expand_token subs1 kv hkv hnd hkeys⟩

def c3subs1 : List (String × String) := [(("a"), ("{b}")), (("b"), ("X"))]

def c3subs2 : List (String × String) := [(("b"), ("X")), (("a"), ("{b}"))]

/-- Witness for the amended claim C3: a two-key map in both iteration
orders; the value of key a contains the token of key b and is emitted
verbatim, not rescanned. -/
theorem claim_C3_witness :
    c3subs1.Perm c3subs2 ∧ ((c3subs1.map Prod.fst).Nodup) ∧
    expand ("{a}{b}") c3subs1 = expand ("{a}{b}") c3subs2 ∧
    expand ("{a}") c3subs1 = ("{b}") := by
  refine ⟨by decide, by decide,
    (claim_C3_amended ("{a}{b}") c3subs1 c3subs2 (by decide) (by decide) (by decide)).1, ?_⟩
  have h := (claim_C3_amended ("{a}{b}") c3subs1 c3subs2 (by decide) (by decide)
    (by decide)).2 (("a"), ("{b}")) (by decide)
  exact h

def c3oddKey : String := "a\x7d\x7bb"

def c3subsA : List (String × String) := [(("a"), ("X")), ((c3oddKey), ("Y"))]

def c3subsB : List (String × String) := [((c3oddKey), ("Y")), (("a"), ("X"))]

/-- Counterexample to claim C3 as stated over every finite substitution map:
the two-key map with keys a and a-brace-brace-b is a genuine map (distinct
keys), yet its two iteration orders give different outputs on the same
template, because the braced pattern of one key is a proper prefix of the
braced pattern of the other. -/
theorem claim_C3_counterexample :
    c3subsA.Perm c3subsB ∧ ((c3subsA.map Prod.fst).Nodup) ∧
    expand ("{a}{b}") c3subsA ≠ expand ("{a}{b}") c3subsB := by
  refine ⟨by decide, by decide, by decide⟩

/-! ## A declarative match relation and engine adequacy

`Mre re t rest` states that `re` matches exactly the text `t` when the
input continues with `rest` (the continuation matters only for the
end-of-text anchor).  Repetition requires each iteration to consume input,
matching the engine; since every repeated sub-expression of the patterns in
this file consumes at least one character, this is the standard semantics
for them. -/

inductive Mre : Re → List Char → List Char → Prop where
  | eps (rest : List Char) : Mre .eps [] rest
  | cls (p : Char → Bool) (c : Char) (rest : List Char) (h : p c = true) : Mre (.cls p) [c] rest
  | anyc (c : Char) (rest : List Char) (h : (c == newlineChar) = false) : Mre .anyc [c] rest
  | str (l rest : List Char) : Mre (.str l) l rest
  | seq (a b : Re) (t1 t2 rest : List Char) (h1 : Mre a t1 (t2 ++ rest))
      (h2 : Mre b t2 rest) : Mre (.seq a b) (t1 ++ t2) rest
  | altL (a b : Re) (t rest : List Char) (h : Mre a t rest) : Mre (.alt a b) t rest
  | altR (a b : Re) (t rest : List Char) (h : Mre b t rest) : Mre (.alt a b) t rest
  | starNil (g : Bool) (r : Re) (rest : List Char) : Mre (.star g r) [] rest
  | starCons (g : Bool) (r : Re) (t1 t2 rest : List Char) (hne : t1 ≠ [])
      (h1 : Mre r t1 (t2 ++ rest)) (h2 : Mre (.star g r) t2 rest) :
      Mre (.star g r) (t1 ++ t2) rest
  | group (i : Nat) (nm : String) (r : Re) (t rest : List Char) (h : Mre r t rest) :
      Mre (.group i nm r) t rest
  | eos : Mre .eos [] []

/-- The star unfolding with the flatMap spelled out, for rewriting. -/
theorem runs_star' (g : Bool) (r : Re) (s : List Char) (caps : Caps) :
    runs (.star g r) s caps =
      (if g then
        ((runs r s caps).flatMap (fun pr =>
          if 0 < pr.1 ∧ pr.1 ≤ s.length then
            (runs (.star g r) (s.drop pr.1) pr.2).map (fun qr => (pr.1 + qr.1, qr.2))
          else [])) ++ [(0, caps)]
      else (0, caps) :: ((runs r s caps).flatMap (fun pr =>
          if 0 < pr.1 ∧ pr.1 ≤ s.length then
            (runs (.star g r) (s.drop pr.1) pr.2).map (fun qr => (pr.1 + qr.1, qr.2))
          else []))) :=
  runs_star g r s caps

/-- Soundness of the engine: every result of `runs` is a match in the
declarative sense, splitting the input at the consumed length. -/
theorem runs_sound : ∀ (re : Re) (s : List Char) (caps0 : Caps) (pr : Nat × Caps),
    pr ∈ runs re s caps0 → pr.1 ≤ s.length ∧ Mre re (s.take pr.1) (s.drop pr.1) := by
  intro re
  induction re with
  | eps =>
    intro s caps0 pr hpr
    simp only [runs, List.mem_singleton] at hpr
    subst hpr
    exact ⟨Nat.zero_le _, Mre.eps s⟩
  | cls p =>
    intro s caps0 pr hpr
    cases s with
    | nil => simp [runs] at hpr
    | cons c rest =>
      simp only [runs] at hpr
      rcases hpc : p c with _ | _
      · rw [hpc] at hpr; simp at hpr
      · rw [hpc] at hpr
        simp only [if_true, List.mem_singleton] at hpr
        subst hpr
        exact ⟨by simp, Mre.cls p c rest hpc⟩
  | anyc =>
    intro s caps0 pr hpr
    cases s with
    | nil => simp [runs] at hpr
    | cons c rest =>
      simp only [runs] at hpr
      rcases hpc : (c == newlineChar) with _ | _
      · rw [hpc] at hpr
        simp only [Bool.false_eq_true, if_false, List.mem_singleton] at hpr
        subst hpr
        exact ⟨by simp, Mre.anyc c rest hpc⟩
      · rw [hpc] at hpr; simp at hpr
  | str l =>
    intro s caps0 pr hpr
    simp only [runs] at hpr
    rcases hp : l.isPrefixOf s with _ | _
    · rw [hp] at hpr; simp at hpr
    · rw [hp] at hpr
      simp only [if_true, List.mem_singleton] at hpr
      subst hpr
      have hp' : l <+: s := List.isPrefixOf_iff_prefix.mp hp
      have htake : s.take l.length = l := (List.prefix_iff_eq_take.mp hp').symm
      refine ⟨hp'.length_le, ?_⟩
      show Mre (.str l) (s.take l.length) (s.drop l.length)
      rw [htake]
      exact Mre.str l (s.drop l.length)
  | seq a b iha ihb =>
    intro s caps0 pr hpr
    simp only [runs, List.mem_flatMap, List.mem_map] at hpr
    obtain ⟨q, hq, qr, hqr, hpr⟩ := hpr
    subst hpr
    obtain ⟨hq1, hqM⟩ := iha s caps0 q hq
    obtain ⟨hr1, hrM⟩ := ihb (s.drop q.1) q.2 qr hqr
    constructor
    · simp only [List.length_drop] at hr1
      omega
    · have htake : s.take (q.1 + qr.1) = s.take q.1 ++ (s.drop q.1).take qr.1 :=
        List.take_add s q.1 qr.1
      have hdrop : s.drop (q.1 + qr.1) = (s.drop q.1).drop qr.1 :=
        (List.drop_drop qr.1 q.1 s).symm
      rw [htake, hdrop]
      exact Mre.seq a b _ _ _ (by rw [List.take_append_drop]; exact hqM) hrM
  | alt a b iha ihb =>
    intro s caps0 pr hpr
    simp only [runs, List.mem_append] at hpr
    rcases hpr with h | h
    · obtain ⟨h1, h2⟩ := iha s caps0 pr h
      exact ⟨h1, Mre.altL a b _ _ h2⟩
    · obtain ⟨h1, h2⟩ := ihb s caps0 pr h
      exact ⟨h1, Mre.altR a b _ _ h2⟩
  | star g r ihr =>
    have aux : ∀ (n : Nat), ∀ (s : List Char), s.length = n → ∀ (caps0 : Caps)
        (pr : Nat × Caps), pr ∈ runs (.star g r) s caps0 →
        pr.1 ≤ s.length ∧ Mre (.star g r) (s.take pr.1) (s.drop pr.1) := by
      intro n
      induction n using Nat.strong_induction_on with
      | _ n ihn =>
        intro s hs caps0 pr hpr
        rw [runs_star'] at hpr
        have hbase : pr = (0, caps0) ∨ pr ∈ (runs r s caps0).flatMap (fun q =>
            if 0 < q.1 ∧ q.1 ≤ s.length then
              (runs (.star g r) (s.drop q.1) q.2).map (fun qr => (q.1 + qr.1, qr.2))
            else []) := by
          cases g
          · simp only [if_false, Bool.false_eq_true, List.mem_cons] at hpr
            exact hpr
          · simp only [if_true, List.mem_append, List.mem_singleton] at hpr
            tauto
        rcases hbase with rfl | hdeep
        · exact ⟨Nat.zero_le _, by simpa using Mre.starNil g r s⟩
        · simp only [List.mem_flatMap] at hdeep
          obtain ⟨q, hq, hmem⟩ := hdeep
          by_cases hcond : 0 < q.1 ∧ q.1 ≤ s.length
          · rw [if_pos hcond] at hmem
            simp only [List.mem_map] at hmem
            obtain ⟨qr, hqr, hpr2⟩ := hmem
            subst hpr2
            obtain ⟨hq1, hqM⟩ := ihr s caps0 q hq
            have hlen : (s.drop q.1).length < n := by
              simp only [List.length_drop]
              omega
            obtain ⟨hr1, hrM⟩ := ihn (s.drop q.1).length hlen (s.drop q.1) rfl q.2 qr hqr
            constructor
            · simp only [List.length_drop] at hr1
              omega
            · have htake : s.take (q.1 + qr.1) = s.take q.1 ++ (s.drop q.1).take qr.1 :=
                List.take_add s q.1 qr.1
              have hdrop : s.drop (q.1 + qr.1) = (s.drop q.1).drop qr.1 :=
                (List.drop_drop qr.1 q.1 s).symm
              rw [htake, hdrop]
              refine Mre.starCons g r _ _ _ ?_ (by rw [List.take_append_drop]; exact hqM) hrM
              have : (s.take q.1).length = q.1 := by
                simp only [List.length_take]
                omega
              intro hnil
              rw [hnil] at this
              simp at this
              omega
          · rw [if_neg hcond] at hmem
            simp at hmem
    intro s caps0 pr hpr
    exact aux s.length s rfl caps0 pr hpr
  | group i nm r ihr =>
    intro s caps0 pr hpr
    simp only [runs, List.mem_map] at hpr
    obtain ⟨q, hq, hpr⟩ := hpr
    subst hpr
    obtain ⟨h1, h2⟩ := ihr s caps0 q hq
    exact ⟨h1, Mre.group i nm r _ _ h2⟩
  | eos =>
    intro s caps0 pr hpr
    cases s with
    | nil =>
      simp only [runs, List.mem_singleton] at hpr
      subst hpr
      exact ⟨Nat.zero_le _, Mre.eos⟩
    | cons c rest => simp [runs] at hpr

/-- Completeness of the engine: every declarative match appears among the
results of `runs` on the matched text followed by the continuation. -/
theorem Mre_complete : ∀ {re : Re} {t rest : List Char}, Mre re t rest →
    ∀ caps0 : Caps, ∃ caps, (t.length, caps) ∈ runs re (t ++ rest) caps0 := by
  intro re t rest h
  induction h with
  | eps rest => intro caps0; exact ⟨caps0, by simp [runs]⟩
  | cls p c rest hc => intro caps0; exact ⟨caps0, by simp [runs, hc]⟩
  | anyc c rest hc => intro caps0; exact ⟨caps0, by simp [runs, hc]⟩
  | str l rest =>
    intro caps0
    refine ⟨caps0, ?_⟩
    have hp : l.isPrefixOf (l ++ rest) = true := by
      rw [List.isPrefixOf_iff_prefix]
      exact List.prefix_append l rest
    simp [runs, hp]
  | seq a b t1 t2 rest h1 h2 ih1 ih2 =>
    intro caps0
    obtain ⟨c1, hc1⟩ := ih1 caps0
    obtain ⟨c2, hc2⟩ := ih2 c1
    refine ⟨c2, ?_⟩
    simp only [runs, List.mem_flatMap, List.mem_map]
    refine ⟨(t1.length, c1), ?_, ⟨(t2.length, c2), ?_, by simp⟩⟩
    · rw [List.append_assoc]
      exact hc1
    · rw [List.append_assoc, List.drop_left]
      exact hc2
  | altL a b t rest h ih =>
    intro caps0
    obtain ⟨c1, hc1⟩ := ih caps0
    exact ⟨c1, by simp only [runs, List.mem_append]; exact Or.inl hc1⟩
  | altR a b t rest h ih =>
    intro caps0
    obtain ⟨c1, hc1⟩ := ih caps0
    exact ⟨c1, by simp only [runs, List.mem_append]; exact Or.inr hc1⟩
  | starNil g r rest =>
    intro caps0
    refine ⟨caps0, ?_⟩
    rw [runs_star']
    cases g <;> simp
  | starCons g r t1 t2 rest hne h1 h2 ih1 ih2 =>
    intro caps0
    obtain ⟨c1, hc1⟩ := ih1 caps0
    obtain ⟨c2, hc2⟩ := ih2 c1
    refine ⟨c2, ?_⟩
    rw [runs_star']
    have hmem : ((t1 ++ t2).length, c2) ∈
        (runs r ((t1 ++ t2) ++ rest) caps0).flatMap (fun q =>
          if 0 < q.1 ∧ q.1 ≤ ((t1 ++ t2) ++ rest).length then
            (runs (.star g r) (((t1 ++ t2) ++ rest).drop q.1) q.2).map
              (fun qr => (q.1 + qr.1, qr.2))
          else []) := by
      simp only [List.mem_flatMap]
      refine ⟨(t1.length, c1), by rw [List.append_assoc]; exact hc1, ?_⟩
      have hcond : 0 < t1.length ∧ t1.length ≤ ((t1 ++ t2) ++ rest).length := by
        constructor
        · exact List.length_pos.mpr hne
        · simp only [List.length_append]
          omega
      rw [if_pos hcond]
      simp only [List.mem_map]
      refine ⟨(t2.length, c2), ?_, by simp⟩
      rw [List.append_assoc, List.drop_left]
      exact hc2
    cases g
    · exact List.mem_cons_of_mem _ hmem
    · exact List.mem_append_left _ hmem
  | group i nm r t rest h ih =>
    intro caps0
    obtain ⟨c1, hc1⟩ := ih caps0
    refine ⟨(i, (t ++ rest).take t.length) :: c1, ?_⟩
    simp only [runs, List.mem_map]
    exact ⟨(t.length, c1), hc1, rfl⟩
  | eos =>
    intro caps0
    exact ⟨caps0, by simp [runs]⟩

theorem Mre_eps_inv {t rest : List Char} (h : Mre .eps t rest) : t = [] := by
  cases h; rfl

theorem Mre_cls_inv {p : Char → Bool} {t rest : List Char} (h : Mre (.cls p) t rest) :
    ∃ c, t = [c] ∧ p c = true := by
  cases h with
  | cls p c rest hc => exact ⟨c, rfl, hc⟩

theorem Mre_str_inv {l t rest : List Char} (h : Mre (.str l) t rest) : t = l := by
  cases h; rfl

theorem Mre_seq_inv {a b : Re} {t rest : List Char} (h : Mre (.seq a b) t rest) :
    ∃ t1 t2, t = t1 ++ t2 ∧ Mre a t1 (t2 ++ rest) ∧ Mre b t2 rest := by
  cases h with
  | seq a b t1 t2 rest h1 h2 => exact ⟨t1, t2, rfl, h1, h2⟩

theorem Mre_alt_inv {a b : Re} {t rest : List Char} (h : Mre (.alt a b) t rest) :
    Mre a t rest ∨ Mre b t rest := by
  cases h with
  | altL _ _ _ _ h => exact Or.inl h
  | altR _ _ _ _ h => exact Or.inr h

theorem Mre_group_inv {i : Nat} {nm : String} {r : Re} {t rest : List Char}
    (h : Mre (.group i nm r) t rest) : Mre r t rest := by
  cases h with
  | group _ _ _ _ _ h => exact h

theorem Mre_eos_inv {t rest : List Char} (h : Mre .eos t rest) : t = [] ∧ rest = [] := by
  cases h; exact ⟨rfl, rfl⟩

theorem Mre_star_cls_chars_aux {g : Bool} {p : Char → Bool} :
    ∀ (n : Nat) (t rest : List Char), t.length ≤ n → Mre (.star g (.cls p)) t rest →
      ∀ c ∈ t, p c = true := by
  intro n
  induction n with
  | zero =>
    intro t rest ht h c hc
    have : t = [] := List.eq_nil_of_length_eq_zero (by omega)
    subst this
    simp at hc
  | succ m ih =>
    intro t rest ht h c hc
    cases h with
    | starNil => simp at hc
    | starCons _ _ t1 t2 _ hne h1 h2 =>
      rcases List.mem_append.mp hc with hc1 | hc2
      · obtain ⟨c0, ht1, hp0⟩ := Mre_cls_inv h1
        rw [ht1] at hc1
        simp only [List.mem_singleton] at hc1
        rw [hc1]
        exact hp0
      · have hpos : 0 < t1.length := List.length_pos.mpr hne
        have hlen : t2.length ≤ m := by
          simp only [List.length_append] at ht
          omega
        exact ih t2 rest hlen h2 c hc2

theorem Mre_star_cls_chars {g : Bool} {p : Char → Bool} {t rest : List Char}
    (h : Mre (.star g (.cls p)) t rest) : ∀ c ∈ t, p c = true :=
  Mre_star_cls_chars_aux t.length t rest (le_refl _) h

theorem Mre_star_cls_of_chars {g : Bool} {p : Char → Bool} :
    ∀ (t rest : List Char), (∀ c ∈ t, p c = true) → Mre (.star g (.cls p)) t rest := by
  intro t
  induction t with
  | nil => intro rest _; exact Mre.starNil g (.cls p) rest
  | cons c tl ih =>
    intro rest hall
    have h : Mre (.star g (.cls p)) ([c] ++ tl) rest :=
      Mre.starCons g (.cls p) [c] tl rest (by simp)
        (Mre.cls p c (tl ++ rest) (hall c (by simp)))
        (ih rest (fun d hd => hall d (by simp [hd])))
    simpa using h

theorem Mre_plus_cls_iff {g : Bool} {p : Char → Bool} {t rest : List Char} :
    Mre (plusR g (.cls p)) t rest ↔ (t ≠ [] ∧ ∀ c ∈ t, p c = true) := by
  constructor
  · intro h
    obtain ⟨t1, t2, rfl, h1, h2⟩ := Mre_seq_inv h
    obtain ⟨c, rfl, hpc⟩ := Mre_cls_inv h1
    have hall := Mre_star_cls_chars h2
    refine ⟨by simp, ?_⟩
    intro d hd
    rcases List.mem_append.mp hd with hd1 | hd2
    · simp only [List.mem_singleton] at hd1
      rw [hd1]
      exact hpc
    · exact hall d hd2
  · rintro ⟨hne, hall⟩
    obtain ⟨c, tl, rfl⟩ := List.exists_cons_of_ne_nil hne
    have h : Mre (.seq (.cls p) (.star g (.cls p))) ([c] ++ tl) rest :=
      Mre.seq _ _ _ _ _ (Mre.cls p c (tl ++ rest) (hall c (by simp)))
        (Mre_star_cls_of_chars tl rest (fun d hd => hall d (by simp [hd])))
    simpa using h

theorem Mre_rept_cls_iff {p : Char → Bool} :
    ∀ (n : Nat) (t rest : List Char),
      Mre (reptR n (.cls p)) t rest ↔ (t.length = n ∧ ∀ c ∈ t, p c = true) := by
  intro n
  induction n with
  | zero =>
    intro t rest
    constructor
    · intro h
      have := Mre_eps_inv h
      subst this
      simp
    · rintro ⟨hl, _⟩
      have : t = [] := List.eq_nil_of_length_eq_zero hl
      subst this
      exact Mre.eps rest
  | succ m ih =>
    intro t rest
    constructor
    · intro h
      obtain ⟨t1, t2, rfl, h1, h2⟩ := Mre_seq_inv h
      obtain ⟨c, rfl, hpc⟩ := Mre_cls_inv h1
      obtain ⟨hl, hall⟩ := (ih t2 rest).mp h2
      refine ⟨by simp [hl], ?_⟩
      intro d hd
      rcases List.mem_append.mp hd with hd1 | hd2
      · simp only [List.mem_singleton] at hd1
        rw [hd1]
        exact hpc
      · exact hall d hd2
    · rintro ⟨hl, hall⟩
      cases t with
      | nil => simp at hl
      | cons c tl =>
        have h : Mre (.seq (.cls p) (reptR m (.cls p))) ([c] ++ tl) rest :=
          Mre.seq _ _ _ _ _ (Mre.cls p c (tl ++ rest) (hall c (by simp)))
            ((ih tl rest).mpr ⟨by simpa using hl, fun d hd => hall d (by simp [hd])⟩)
        simpa using h

theorem Mre_opt_true_iff {r : Re} {t rest : List Char} :
    Mre (optR true r) t rest ↔ (Mre r t rest ∨ t = []) := by
  constructor
  · intro h
    rcases Mre_alt_inv h with h | h
    · exact Or.inl h
    · exact Or.inr (Mre_eps_inv h)
  · rintro (h | rfl)
    · exact Mre.altL _ _ _ _ h
    · exact Mre.altR _ _ _ _ (Mre.eps rest)

/-! ## The pseudo-version grammar, in the words of the spec -/

/-- Optional pre-release part of the middle alternative: empty, or a label
free of plus signs followed by a dot.  Follows the spec text. -/
def preSpec (pre : List Char) : Prop :=
  pre = [] ∨ ∃ lbl : List Char, pre = lbl ++ [('.')] ∧ ∀ c ∈ lbl, clsNotPlus c = true

/-- Middle of a pseudo-version: either the fixed 0.0- form, or
minor.patch- with an optional pre-release label and a trailing 0. marker.
Follows the spec text. -/
def midSpec (mid : List Char) : Prop :=
  mid = litZZDash ∨
  ∃ minor patch pre : List Char,
    mid = minor ++ ([('.')] ++ (patch ++ ([('-')] ++ (pre ++ litZeroDot)))) ∧
    minor ≠ [] ∧ (∀ c ∈ minor, clsDigit c = true) ∧
    patch ≠ [] ∧ (∀ c ∈ patch, clsDigit c = true) ∧ preSpec pre

/-- The pseudo-version grammar following the words of the spec: the letter
v, a nonempty run of digits, a dot, the middle alternative, exactly
fourteen digits, a hyphen, a nonempty alphanumeric revision token, and an
optional incompatible marker.  This is the comparison definition written
from the spec, to be proved equivalent to the regular expression the source
uses. -/
def specPseudoGrammarL (t : List Char) : Prop :=
  ∃ major mid ts rev inc : List Char,
    t = [('v')] ++ (major ++ ([('.')] ++ (mid ++ (ts ++ ([('-')] ++ (rev ++ inc)))))) ∧
    major ≠ [] ∧ (∀ c ∈ major, clsDigit c = true) ∧
    midSpec mid ∧
    ts.length = 14 ∧ (∀ c ∈ ts, clsDigit c = true) ∧
    rev ≠ [] ∧ (∀ c ∈ rev, clsAlnum c = true) ∧
    (inc = [] ∨ inc = litPlusIncompat)

/-- Forward direction: a declarative match of the pseudo-version regular
expression consumes the whole input and exhibits the grammar structure. -/
theorem pseudo_Mre_decomp {t rest : List Char} (h : Mre pseudoVersionRE t rest) :
    rest = [] ∧ specPseudoGrammarL t := by
  obtain ⟨t1, t2, rfl, hv, h⟩ := Mre_seq_inv h
  have ht1 : t1 = [('v')] := Mre_str_inv hv
  obtain ⟨major, t3, rfl, hmaj, h⟩ := Mre_seq_inv h
  have hmajor := Mre_plus_cls_iff.mp hmaj
  obtain ⟨t4, t5, rfl, hdot, h⟩ := Mre_seq_inv h
  have ht4 : t4 = [('.')] := Mre_str_inv hdot
  obtain ⟨mid, t6, rfl, hmid0, h⟩ := Mre_seq_inv h
  have hmidM := Mre_group_inv hmid0
  obtain ⟨ts, t7, rfl, hts, h⟩ := Mre_seq_inv h
  have htsC := (Mre_rept_cls_iff 14 ts _).mp hts
  obtain ⟨t8, t9, rfl, hdash, h⟩ := Mre_seq_inv h
  have ht8 : t8 = [('-')] := Mre_str_inv hdash
  obtain ⟨rev, t10, rfl, hrev, h⟩ := Mre_seq_inv h
  have hrevC := Mre_plus_cls_iff.mp hrev
  obtain ⟨inc, t11, rfl, hinc, h⟩ := Mre_seq_inv h
  obtain ⟨ht11, hrest⟩ := Mre_eos_inv h
  have hincC : inc = [] ∨ inc = litPlusIncompat := by
    rcases Mre_opt_true_iff.mp hinc with hg | hg
    · exact Or.inr (Mre_str_inv (Mre_group_inv hg))
    · exact Or.inl hg
  have hmidC : midSpec mid := by
    rcases Mre_alt_inv hmidM with hz | hb
    · exact Or.inl (Mre_str_inv hz)
    · obtain ⟨minor, m2, rfl, hminor, hb⟩ := Mre_seq_inv hb
      obtain ⟨m3, m4, rfl, hdot2, hb⟩ := Mre_seq_inv hb
      have hm3 : m3 = [('.')] := Mre_str_inv hdot2
      obtain ⟨patch, m5, rfl, hpatch, hb⟩ := Mre_seq_inv hb
      obtain ⟨m6, m7, rfl, hdash2, hb⟩ := Mre_seq_inv hb
      have hm6 : m6 = [('-')] := Mre_str_inv hdash2
      obtain ⟨pre, m8, rfl, hpre, hb⟩ := Mre_seq_inv hb
      have hm8 : m8 = litZeroDot := Mre_str_inv hb
      have hpreC : preSpec pre := by
        rcases Mre_opt_true_iff.mp hpre with hg | hg
        · have hg2 := Mre_group_inv hg
          obtain ⟨lbl, l2, rfl, hlbl, hdot3⟩ := Mre_seq_inv hg2
          have hl2 : l2 = [('.')] := Mre_str_inv hdot3
          exact Or.inr ⟨lbl, by rw [hl2], Mre_star_cls_chars hlbl⟩
        · exact Or.inl hg
      refine Or.inr ⟨minor, patch, pre, ?_, (Mre_plus_cls_iff.mp hminor).1,
        (Mre_plus_cls_iff.mp hminor).2, (Mre_plus_cls_iff.mp hpatch).1,
        (Mre_plus_cls_iff.mp hpatch).2, hpreC⟩
      rw [hm3, hm6, hm8]
  refine ⟨hrest, major, mid, ts, rev, inc, ?_, hmajor.1, hmajor.2, hmidC, htsC.1, htsC.2,
    hrevC.1, hrevC.2, hincC⟩
  rw [ht1, ht4, ht8, ht11]
  simp [List.append_assoc]

/-- Backward direction: a string with the grammar structure is matched in
full by the pseudo-version regular expression. -/
theorem pseudo_Mre_construct {t : List Char} (h : specPseudoGrammarL t) :
    Mre pseudoVersionRE t [] := by
  obtain ⟨major, mid, ts, rev, inc, hv, hmne, hmd, hmid, hts14, htsd, hrne, hra, hinc⟩ := h
  subst hv
  refine Mre.seq _ _ [('v')] _ _ (Mre.str _ _) ?_
  refine Mre.seq _ _ major _ _ (Mre_plus_cls_iff.mpr ⟨hmne, hmd⟩) ?_
  refine Mre.seq _ _ [('.')] _ _ (Mre.str _ _) ?_
  refine Mre.seq _ _ mid _ _ (Mre.group _ _ _ _ _ ?_) ?_
  · rcases hmid with hzz | ⟨minor, patch, pre, hmideq, hminne, hminD, hpatne, hpatD, hpre⟩
    · rw [hzz]
      exact Mre.altL _ _ _ _ (Mre.str _ _)
    · rw [hmideq]
      refine Mre.altR _ _ _ _ ?_
      refine Mre.seq _ _ minor _ _ (Mre_plus_cls_iff.mpr ⟨hminne, hminD⟩) ?_
      refine Mre.seq _ _ [('.')] _ _ (Mre.str _ _) ?_
      refine Mre.seq _ _ patch _ _ (Mre_plus_cls_iff.mpr ⟨hpatne, hpatD⟩) ?_
      refine Mre.seq _ _ [('-')] _ _ (Mre.str _ _) ?_
      refine Mre.seq _ _ pre _ _ ?_ (Mre.str _ _)
      rcases hpre with hnil | ⟨lbl, hpreq, hlbl⟩
      · rw [hnil]
        exact Mre_opt_true_iff.mpr (Or.inr rfl)
      · rw [hpreq]
        refine Mre_opt_true_iff.mpr (Or.inl (Mre.group _ _ _ _ _ ?_))
        exact Mre.seq _ _ lbl [('.')] _ (Mre_star_cls_of_chars lbl _ hlbl) (Mre.str _ _)
  · refine Mre.seq _ _ ts _ _ ((Mre_rept_cls_iff 14 ts _).mpr ⟨hts14, htsd⟩) ?_
    refine Mre.seq _ _ [('-')] _ _ (Mre.str _ _) ?_
    refine Mre.seq _ _ rev inc _ (Mre_plus_cls_iff.mpr ⟨hrne, hra⟩) ?_
    have hfin : Mre ((optR true (.group 3 emptyName (.str litPlusIncompat))).seq .eos)
        (inc ++ []) [] := by
      refine Mre.seq _ _ inc [] [] ?_ Mre.eos
      rcases hinc with hni | hpi
      · rw [hni]
        exact Mre_opt_true_iff.mpr (Or.inr rfl)
      · rw [hpi]
        exact Mre_opt_true_iff.mpr (Or.inl (Mre.group _ _ _ _ _ (Mre.str _ _)))
    simpa using hfin

/-- Equivalence of the classification of `isPseudoVersion` with the
grammar of the spec: a version string is classified as a pseudo-version
exactly when it contains at least two hyphens and has the grammar
structure. -/
theorem isPseudoVersion_iff (v : String) :
    isPseudoVersion v = true ↔ (2 ≤ hyphenCount v ∧ specPseudoGrammarL v.data) := by
  constructor
  · intro h
    simp only [isPseudoVersion, Bool.and_eq_true, decide_eq_true_eq] at h
    obtain ⟨hcnt, hne⟩ := h
    have hex : ∃ pr, pr ∈ runs pseudoVersionRE v.data [] := by
      rcases hre : runs pseudoVersionRE v.data [] with _ | ⟨q, qs⟩
      · rw [hre] at hne
        simp at hne
      · exact ⟨q, by simp [hre]⟩
    obtain ⟨pr, hpr⟩ := hex
    obtain ⟨hle, hM⟩ := runs_sound _ _ _ _ hpr
    obtain ⟨hrest, hgram⟩ := pseudo_Mre_decomp hM
    have hlen : v.data.length ≤ pr.1 := by
      have := congrArg List.length hrest
      simp only [List.length_drop, List.length_nil] at this
      omega
    have hfull : v.data.take pr.1 = v.data := List.take_of_length_le hlen
    rw [hfull] at hgram
    exact ⟨hcnt, hgram⟩
  · rintro ⟨hcnt, hgram⟩
    have hM : Mre pseudoVersionRE v.data [] := pseudo_Mre_construct hgram
    obtain ⟨caps, hmem⟩ := Mre_complete hM []
    rw [List.append_nil] at hmem
    simp only [isPseudoVersion, Bool.and_eq_true, decide_eq_true_eq]
    refine ⟨hcnt, ?_⟩
    have : runs pseudoVersionRE v.data [] ≠ [] := List.ne_nil_of_mem hmem
    simp [List.isEmpty_iff, this]

theorem lastIndexC_of_not_mem : ∀ (s : List Char) (c : Char), c ∉ s → lastIndexC s c = -1 := by
  intro s c
  induction s with
  | nil => intro _; rfl
  | cons x rest ih =>
    intro h
    have hrest : lastIndexC rest c = -1 := ih (fun hm => h (List.mem_cons_of_mem _ hm))
    have hne : ¬ x = c := fun he => h (by simp [he])
    have hbeq : (x == c) = false := beq_eq_false_iff_ne.mpr hne
    simp only [lastIndexC, hrest]
    rw [if_neg (by omega), if_neg (by simp [hbeq])]

/-- The last-index computation splits its input at the last occurrence of
the character: everything after that position is free of it. -/
theorem lastIndexC_spec : ∀ (s : List Char) (c : Char), c ∈ s →
    0 ≤ lastIndexC s c ∧
    s = s.take ((lastIndexC s c).toNat) ++ (c :: s.drop ((lastIndexC s c).toNat + 1)) ∧
    c ∉ s.drop ((lastIndexC s c).toNat + 1) := by
  intro s c
  induction s with
  | nil => intro h; cases h
  | cons x rest ih =>
    intro hmem
    by_cases hr : c ∈ rest
    · obtain ⟨hge, heq, hnot⟩ := ih hr
      have hval : lastIndexC (x :: rest) c = lastIndexC rest c + 1 := by
        simp only [lastIndexC]
        rw [if_pos hge]
      have htn : (lastIndexC (x :: rest) c).toNat = (lastIndexC rest c).toNat + 1 := by
        rw [hval]
        omega
      refine ⟨by omega, ?_, ?_⟩
      · rw [htn]
        simp only [List.take_succ_cons, List.drop_succ_cons, List.cons_append]
        exact congrArg (fun l => x :: l) heq
      · rw [htn]
        simp only [List.drop_succ_cons]
        exact hnot
    · have hx : x = c := by
        rcases List.mem_cons.mp hmem with h | h
        · exact h.symm
        · exact absurd h hr
      have hrest : lastIndexC rest c = -1 := lastIndexC_of_not_mem rest c hr
      have hval : lastIndexC (x :: rest) c = 0 := by
        simp only [lastIndexC, hrest]
        rw [if_neg (by omega), if_pos (by simp [hx])]
      refine ⟨by omega, ?_, ?_⟩
      · rw [hval]
        simp [hx]
      · rw [hval]
        simpa using hr

/-- Claim C2: the classification of a version string as a pseudo-version is
equivalent to having at least two hyphens and the grammar of the spec; for
every pseudo-version the derived commit is the text after the last hyphen
of the stripped string, for every directory; and the concrete example
yields its revision token, for every directory. -/
theorem claim_C2 :
    (∀ v : String, isPseudoVersion v = true ↔
      (2 ≤ hyphenCount v ∧ specPseudoGrammarL v.data)) ∧
    (∀ v dir : String, isPseudoVersion (trimSuffix v incompatibleSuffix) = true →
      (trimSuffix v incompatibleSuffix).data =
        (trimSuffix v incompatibleSuffix).data.take
          ((lastIndexC (trimSuffix v incompatibleSuffix).data ('-')).toNat) ++
        (('-') :: (commitFromVersion v dir).data) ∧
      ('-') ∉ (commitFromVersion v dir).data) ∧
    (∀ dir : String, commitFromVersion ("v0.0.0-20190101000000-abcdef123456") dir =
      ("abcdef123456")) ∧
    isPseudoVersion ("v0.0.0-20190101000000-abcdef123456") = true := by
  refine ⟨isPseudoVersion_iff, ?_, ?_, by decide⟩
  · intro v dir h
    have hmem : ('-') ∈ (trimSuffix v incompatibleSuffix).data := by
      have hiff := (isPseudoVersion_iff _).mp h
      have hcnt := hiff.1
      simp only [hyphenCount] at hcnt
      exact List.count_pos_iff.mp (by omega)
    obtain ⟨hge, heq, hnot⟩ := lastIndexC_spec _ ('-') hmem
    have hcommit : (commitFromVersion v dir).data =
        (trimSuffix v incompatibleSuffix).data.drop
          ((lastIndexC (trimSuffix v incompatibleSuffix).data ('-')).toNat + 1) := by
      simp only [commitFromVersion, h, if_true]
      rw [show ((lastIndexC (trimSuffix v incompatibleSuffix).data ('-')) + 1).toNat =
        (lastIndexC (trimSuffix v incompatibleSuffix).data ('-')).toNat + 1 from by omega]
    constructor
    · rw [hcommit]
      exact heq
    · rw [hcommit]
      exact hnot
  · intro dir
    simp only [commitFromVersion]
    rw [if_pos (show isPseudoVersion
      (trimSuffix ("v0.0.0-20190101000000-abcdef123456") incompatibleSuffix) = true from
        by decide)]
    decide

/-- Witness for claim C2 at a concrete pseudo-version and directory. -/
theorem claim_C2_witness :
    isPseudoVersion
      (trimSuffix ("v0.0.0-20190101000000-abcdef123456") incompatibleSuffix) = true ∧
    ((trimSuffix ("v0.0.0-20190101000000-abcdef123456") incompatibleSuffix).data =
      (trimSuffix ("v0.0.0-20190101000000-abcdef123456") incompatibleSuffix).data.take
        ((lastIndexC (trimSuffix ("v0.0.0-20190101000000-abcdef123456")
          incompatibleSuffix).data ('-')).toNat) ++
      (('-') ::
        (commitFromVersion ("v0.0.0-20190101000000-abcdef123456") ("sub")).data) ∧
      ('-') ∉ (commitFromVersion ("v0.0.0-20190101000000-abcdef123456") ("sub")).data) :=
  ⟨by decide, claim_C2.2.1 ("v0.0.0-20190101000000-abcdef123456") ("sub") (by decide)⟩
